import Mathlib

/-!
Verification of the uigen virtual file system (VFS), transform pipeline,
preview renderer, and chat/tool UI helpers.

The VFS, transform pipeline and preview renderer implementations
(`src/lib/file-system.ts`, `src/lib/transform/jsx-transformer.ts`,
`src/components/preview/PreviewFrame.tsx`) are not part of the available
sources, so they are modelled from the specification (sections 3, 4.1, 4.2,
4.3 and 5 of the spec).  The tool-invocation badge (`ToolInvocationBadge.tsx`)
and the chat provider (`chat-context.tsx`) are present in the sources and are
embedded directly.
-/

/-- Modelled from the spec: a file-system node is either a file with text
content or a directory.  Timestamps (`lastModified`) carry no observable
semantics in the spec's contracts and are omitted. -/
inductive VNode where
  | file (content : String)
  | dir
deriving DecidableEq, Repr

/-- A canonical path: the list of path segments of a normalized absolute
path.  The root directory is the empty list. -/
abbrev Key := List String

/-- First-match association-list lookup over path-keyed entries. -/
def alookup (k : Key) : List (Key × VNode) → Option VNode
  | [] => none
  | e :: rest => if e.1 = k then some e.2 else alookup k rest

/-- Replace the value at a key if present, otherwise append the new entry. -/
def insertEntry (k : Key) (v : VNode) : List (Key × VNode) → List (Key × VNode)
  | [] => [(k, v)]
  | e :: rest => if e.1 = k then (k, v) :: rest else e :: insertEntry k v rest

/-- Modelled from the spec: the virtual file system as an arena-style node
table keyed by normalized path (design note, spec section 9). -/
structure VFS where
  entries : List (Key × VNode)
deriving DecidableEq, Repr

def VFS.lookup (fs : VFS) (k : Key) : Option VNode := alookup k fs.entries

/-- Modelled from the spec: the tree is constructed empty, containing only
the root directory. -/
def emptyVFS : VFS := ⟨[([], VNode.dir)]⟩

/-- Character-level splitter mirroring JavaScript `s.split("/")`:
`""` splits to `[""]`, separators at the ends produce empty segments. -/
def splitChars : List Char → List Char → List String
  | [], cur => [String.mk cur.reverse]
  | c :: cs, cur =>
    if c = '/' then String.mk cur.reverse :: splitChars cs []
    else splitChars cs (c :: cur)

/-- JavaScript-style `path.split("/")`. -/
def jsSplitSlash (s : String) : List String := splitChars s.data []

/-- Modelled from the spec: path normalization collapses repeated slashes,
strips the trailing slash (except for the root) and ensures a leading slash.
The canonical form is the list of nonempty segments. -/
def pathSegments (p : String) : Key := (jsSplitSlash p).filter (fun s => s ≠ "")

/-- Characters of the canonical rendering of a path: a leading `/` before
each segment. -/
def renderChars (k : Key) : List Char := k.foldr (fun s acc => '/' :: (s.data ++ acc)) []

/-- Canonical string rendering of a path: `/` for the root, otherwise the
segments joined by `/` with a leading slash. -/
def renderPath (k : Key) : String := if k = [] then "/" else String.mk (renderChars k)

/-- The proper ancestors of a path, outermost first, excluding the root:
for `/a/b/c` these are `/a` and `/a/b`. -/
def properAncestors (k : Key) : List Key :=
  (List.range (k.length - 1)).map (fun i => k.take (i + 1))

/-- Modelled from the spec: the VFS-layer error taxonomy (spec section 7). -/
inductive VfsError where
  | PathConflict
  | NotFound
  | InvalidOperation
  | InvalidSnapshot
deriving DecidableEq, Repr

/-- Modelled from the spec: create the listed directories if missing
(mkdir -p semantics); a path occupied by a file is a `PathConflict`. -/
def ensureDirs : List Key → VFS → Except VfsError VFS
  | [], fs => .ok fs
  | a :: rest, fs =>
    match fs.lookup a with
    | some VNode.dir => ensureDirs rest fs
    | some (VNode.file _) => .error VfsError.PathConflict
    | none => ensureDirs rest ⟨insertEntry a VNode.dir fs.entries⟩

/-- Core of `createFile` on an already-normalized path: fails with
`PathConflict` if a directory occupies the path, creates missing ancestor
directories, and creates or overwrites the file. -/
def VFS.createFileKey (fs : VFS) (p : Key) (content : String) : Except VfsError VFS :=
  match fs.lookup p with
  | some VNode.dir => .error VfsError.PathConflict
  | _ =>
    match ensureDirs (properAncestors p) fs with
    | .error e => .error e
    | .ok fs2 => .ok ⟨insertEntry p (VNode.file content) fs2.entries⟩

/-- Core of `createDirectory` on an already-normalized path: no-op if the
directory exists, `PathConflict` if a file occupies the path, otherwise
creates missing ancestors and the directory itself. -/
def VFS.createDirKey (fs : VFS) (p : Key) : Except VfsError VFS :=
  match fs.lookup p with
  | some VNode.dir => .ok fs
  | some (VNode.file _) => .error VfsError.PathConflict
  | none =>
    match ensureDirs (properAncestors p) fs with
    | .error e => .error e
    | .ok fs2 => .ok ⟨insertEntry p VNode.dir fs2.entries⟩

/-- Modelled from the spec: `createFile(path, content)` (spec section 4.1). -/
def VFS.createFile (fs : VFS) (path content : String) : Except VfsError VFS :=
  fs.createFileKey (pathSegments path) content

/-- Modelled from the spec: `createDirectory(path)` (spec section 4.1). -/
def VFS.createDirectory (fs : VFS) (path : String) : Except VfsError VFS :=
  fs.createDirKey (pathSegments path)

/-- Modelled from the spec: `readFile(path)` fails with `NotFound` if the
path does not resolve to a file. -/
def VFS.readFile (fs : VFS) (path : String) : Except VfsError String :=
  match fs.lookup (pathSegments path) with
  | some (VNode.file c) => .ok c
  | _ => .error VfsError.NotFound

/-- Modelled from the spec: `updateFile(path, content)` fails with `NotFound`
if the file does not exist and does not implicitly create it. -/
def VFS.updateFile (fs : VFS) (path content : String) : Except VfsError VFS :=
  match fs.lookup (pathSegments path) with
  | some (VNode.file _) =>
    .ok ⟨insertEntry (pathSegments path) (VNode.file content) fs.entries⟩
  | _ => .error VfsError.NotFound

/-- Modelled from the spec: `deleteNode(path)` removes the node and, for a
directory, its entire subtree; `InvalidOperation` on the root, `NotFound` if
absent. -/
def VFS.deleteNode (fs : VFS) (path : String) : Except VfsError VFS :=
  let p := pathSegments path
  if p = [] then .error VfsError.InvalidOperation
  else
    match fs.lookup p with
    | none => .error VfsError.NotFound
    | some _ => .ok ⟨fs.entries.filter (fun e => !(p.isPrefixOf e.1))⟩

/-- Modelled from the spec: `renameNode(oldPath, newPath)` re-parents the
node and its subtree, rewriting every descendant path; `NotFound` if the old
path is absent, `PathConflict` if the new path exists.  The spec leaves
renaming the root or renaming a node into its own subtree unspecified; the
model rejects these with `InvalidOperation` to preserve the tree invariants
of spec section 3. -/
def VFS.renameNode (fs : VFS) (oldPath newPath : String) : Except VfsError VFS :=
  let o := pathSegments oldPath
  let n := pathSegments newPath
  match fs.lookup o with
  | none => .error VfsError.NotFound
  | some _ =>
    if (fs.lookup n).isSome then .error VfsError.PathConflict
    else if o.isEmpty || o.isPrefixOf n then .error VfsError.InvalidOperation
    else
      match ensureDirs (properAncestors n) fs with
      | .error e => .error e
      | .ok fs2 =>
        .ok ⟨fs2.entries.map (fun e =>
          if o.isPrefixOf e.1 then (n ++ e.1.drop o.length, e.2) else e)⟩

/-- Modelled from the spec: `exists(path)`. -/
def VFS.existsPath (fs : VFS) (path : String) : Bool :=
  (fs.lookup (pathSegments path)).isSome

/-- Modelled from the spec: `listDirectory(path)` returns the immediate
child names; `NotFound` if the path is not a directory. -/
def VFS.listDirectory (fs : VFS) (path : String) : Except VfsError (List String) :=
  let p := pathSegments path
  match fs.lookup p with
  | some VNode.dir =>
    .ok (fs.entries.filterMap (fun e =>
      match e.1.getLast? with
      | some nm => if e.1.dropLast == p then some nm else none
      | none => none))
  | _ => .error VfsError.NotFound

/-- Modelled from the spec: `serialize()` flattens the tree into a mapping
from absolute path to node; every file and every directory (including empty
ones) is represented. -/
def VFS.serialize (fs : VFS) : List (String × VNode) :=
  fs.entries.map (fun e => (renderPath e.1, e.2))

/-- True for path-keyed entries describing a directory. -/
def isDirEntry {α : Type} (e : α × VNode) : Bool :=
  match e.2 with
  | VNode.dir => true
  | _ => false

/-- Depth (number of canonical segments) of a snapshot entry's path. -/
def entryDepth (e : String × VNode) : Nat := (pathSegments e.1).length

/-- Ordered insertion by depth, used to create ancestor directories before
their descendants during deserialization. -/
def insertByDepth (e : String × VNode) : List (String × VNode) → List (String × VNode)
  | [] => [e]
  | x :: t => if entryDepth e ≤ entryDepth x then e :: x :: t else x :: insertByDepth e t

/-- Insertion sort of snapshot entries by path depth (ancestors first). -/
def sortByDepth (l : List (String × VNode)) : List (String × VNode) :=
  l.foldr insertByDepth []

/-- Replay directory creation for every snapshot entry, in order. -/
def createDirsAll : VFS → List (String × VNode) → Except VfsError VFS
  | fs, [] => .ok fs
  | fs, e :: rest =>
    match fs.createDirectory e.1 with
    | .ok fs2 => createDirsAll fs2 rest
    | .error er => .error er

/-- Replay file creation for every snapshot entry, in order. -/
def createFilesAll : VFS → List (String × VNode) → Except VfsError VFS
  | fs, [] => .ok fs
  | fs, (p, VNode.file c) :: rest =>
    match fs.createFile p c with
    | .ok fs2 => createFilesAll fs2 rest
    | .error er => .error er
  | _, (_, VNode.dir) :: _ => .error VfsError.InvalidSnapshot

/-- Modelled from the spec: `deserialize(snapshot)` builds a replacement
tree from a path-keyed snapshot: directories are created first in an
ancestor-before-descendant order, then files; a malformed snapshot fails
with `InvalidSnapshot` and, being a pure function, never partially mutates
the previous tree (atomic replace-or-reject). -/
def deserialize (snap : List (String × VNode)) : Except VfsError VFS :=
  let dirs := sortByDepth (snap.filter isDirEntry)
  let files := snap.filter (fun e => !(isDirEntry e))
  match createDirsAll emptyVFS dirs with
  | .error _ => .error VfsError.InvalidSnapshot
  | .ok fs1 =>
    match createFilesAll fs1 files with
    | .error _ => .error VfsError.InvalidSnapshot
    | .ok fs2 => .ok fs2

/-- The keys (canonical paths) of the tree are pairwise distinct. -/
def NodupKeys (fs : VFS) : Prop := (fs.entries.map Prod.fst).Nodup

/-- The tree has exactly one entry at the root path and it is a directory. -/
def RootOne (fs : VFS) : Prop :=
  fs.entries.filter (fun e => e.1.isEmpty) = [([], VNode.dir)]

/-- A valid path segment is nonempty and contains no slash. -/
def ValidSeg (s : String) : Prop := s ≠ "" ∧ '/' ∉ s.data

/-- A valid canonical path consists of valid segments. -/
def ValidKey (k : Key) : Prop := ∀ s ∈ k, ValidSeg s

/-- Well-formedness of a tree (spec section 3): unique canonical paths, a
root directory, valid segments, and every non-root node's parent present as
a directory. -/
def WF (fs : VFS) : Prop :=
  NodupKeys fs ∧
  fs.lookup [] = some VNode.dir ∧
  (∀ e ∈ fs.entries, ValidKey e.1) ∧
  (∀ e ∈ fs.entries, e.1 ≠ [] → fs.lookup e.1.dropLast = some VNode.dir)

instance (fs : VFS) : Decidable (NodupKeys fs) := by
  unfold NodupKeys
  infer_instance

instance (fs : VFS) : Decidable (RootOne fs) := by
  unfold RootOne
  infer_instance

instance (s : String) : Decidable (ValidSeg s) := by
  unfold ValidSeg
  infer_instance

instance (k : Key) : Decidable (ValidKey k) := by
  unfold ValidKey
  infer_instance

instance (fs : VFS) : Decidable (WF fs) := by
  unfold WF
  infer_instance

/-- Modelled from the spec: the public mutating VFS operations
(spec section 4.1). -/
inductive VfsOp where
  | opCreateFile (path content : String)
  | opCreateDirectory (path : String)
  | opUpdateFile (path content : String)
  | opDeleteNode (path : String)
  | opRenameNode (oldPath newPath : String)
  | opDeserialize (snap : List (String × VNode))

/-- Run one mutating operation, returning the new tree or an error. -/
def runOp (fs : VFS) : VfsOp → Except VfsError VFS
  | .opCreateFile p c => fs.createFile p c
  | .opCreateDirectory p => fs.createDirectory p
  | .opUpdateFile p c => fs.updateFile p c
  | .opDeleteNode p => fs.deleteNode p
  | .opRenameNode p q => fs.renameNode p q
  | .opDeserialize snap => deserialize snap

/-- Apply one mutating operation: a failed operation leaves the tree
unchanged (spec section 7: failed operations are no-ops). -/
def applyOp (fs : VFS) (op : VfsOp) : VFS :=
  match runOp fs op with
  | .ok fs2 => fs2
  | .error _ => fs

/-- Modelled from the spec: a per-file error artifact of the transform
pipeline, keyed by the file's path (spec section 4.2). -/
structure ErrorArtifact where
  path : String
  message : String
deriving DecidableEq, Repr

/-- Modelled from the spec: a pipeline-internal module record; the blob URL
handle is not observable in the pipeline's outcome and is omitted. -/
structure ModuleRecord where
  path : String
  code : String
deriving DecidableEq, Repr

/-- Modelled from the spec: step 1 of the pipeline walk.  Each file is
transpiled independently; a transpile failure becomes an error artifact
keyed by that file's path and the walk continues with the remaining files.
The transpiler itself is a parameter. -/
def transpileWalk (tp : String → String → Except String String) :
    List (String × String) → List ModuleRecord × List ErrorArtifact
  | [] => ([], [])
  | (p, src) :: rest =>
    let r := transpileWalk tp rest
    match tp p src with
    | .ok code => (⟨p, code⟩ :: r.1, r.2)
    | .error m => (r.1, ⟨p, m⟩ :: r.2)

/-- Modelled from the spec: step 3 of the pipeline walk.  Import resolution
per module; an unresolvable import becomes an error artifact attributed to
the importing file and does not abort the pass.  The resolver is a
parameter. -/
def resolveWalk (rs : ModuleRecord → Except String ModuleRecord) :
    List ModuleRecord → List ModuleRecord × List ErrorArtifact
  | [] => ([], [])
  | m :: rest =>
    let r := resolveWalk rs rest
    match rs m with
    | .ok m2 => (m2 :: r.1, r.2)
    | .error msg => (r.1, ⟨m.path, msg⟩ :: r.2)

/-- Modelled from the spec: the observable shape of the synthesized
document: either a formatted per-file error listing, a mounting application
document for the entry module, or the whole-run `NoEntryPoint` failure. -/
inductive PreviewDoc where
  | errorListing (items : List (String × String))
  | appDoc (entryPath : String)
  | noEntryDoc
deriving DecidableEq, Repr

/-- Modelled from the spec: the fixed ordered list of conventional entry
file names at the tree root; the first one present wins. -/
def entryCandidates : List String := ["/App.jsx", "/App.tsx", "/index.jsx", "/index.tsx"]

/-- Find the entry module by trying the candidates in priority order. -/
def findEntry (mods : List ModuleRecord) : Option ModuleRecord :=
  entryCandidates.findSome? (fun c => mods.find? (fun m => m.path == c))

/-- Modelled from the spec: step 6 of the pipeline.  If any per-file error
artifacts exist the document renders the formatted error listing (file path
plus message) and does not attempt to mount; otherwise the entry module is
mounted, or `NoEntryPoint` is reported when no entry file exists. -/
def synthesizeDocument (mods : List ModuleRecord) (errs : List ErrorArtifact) : PreviewDoc :=
  if errs.isEmpty then
    match findEntry mods with
    | some m => PreviewDoc.appDoc m.path
    | none => PreviewDoc.noEntryDoc
  else
    PreviewDoc.errorListing (errs.map (fun a => (a.path, a.message)))

/-- Whether a synthesized document attempts to mount the entry module. -/
def docMounts : PreviewDoc → Bool
  | PreviewDoc.appDoc _ => true
  | _ => false

/-- Modelled from the spec: one full pipeline run over a snapshot of script
files: transpile walk, resolve walk, document synthesis with all per-file
error artifacts aggregated. -/
def runPipeline (tp : String → String → Except String String)
    (rs : ModuleRecord → Except String ModuleRecord)
    (files : List (String × String)) : PreviewDoc :=
  let w := transpileWalk tp files
  let r := resolveWalk rs w.1
  synthesizeDocument r.1 (w.2 ++ r.2)

/-- Modelled from the spec: the outcome of one preview load. -/
inductive RenderOutcome where
  | loaded
  | failed (message : String)
deriving DecidableEq, Repr

/-- Modelled from the spec: the renderer's host-side state: the current
render generation and the displayed outcome tagged with the generation that
produced it (spec section 5, stale-render discard). -/
structure RendererState where
  generation : Nat
  displayed : Option (Nat × RenderOutcome)
deriving DecidableEq, Repr

def initialRenderer : RendererState := ⟨0, none⟩

/-- Modelled from the spec: starting a render bumps the generation counter;
the previous outcome remains displayed until a completion arrives. -/
def startRender (s : RendererState) : RendererState :=
  ⟨s.generation + 1, s.displayed⟩

/-- Modelled from the spec: a load/error callback carries the generation of
the run that produced it; it is ignored unless it matches the current
generation. -/
def completeRender (s : RendererState) (gen : Nat) (r : RenderOutcome) : RendererState :=
  if gen = s.generation then ⟨s.generation, some (gen, r)⟩ else s

/-- Embedded from `ToolInvocationBadge.tsx`: the icons used by
`getToolDisplayInfo` (plus the loading spinner). -/
inductive ToolIcon where
  | filePlus
  | fileEdit
  | eye
  | fileText
  | folderEdit
  | trash
deriving DecidableEq, Repr

/-- Embedded from `ToolInvocationBadge.tsx`: the fields of the `args` object
the component reads; each may be absent.  A `none` at the outer `Option`
models a null/undefined `args` value. -/
structure ToolArgs where
  command : Option String
  path : Option String
  newPath : Option String
deriving DecidableEq, Repr

/-- JavaScript `v || dflt` for an optional string: the default is taken when
the value is undefined or empty (falsy). -/
def jsOr (v : Option String) (dflt : String) : String :=
  match v with
  | some s => if s = "" then dflt else s
  | none => dflt

/-- Embedded from `ToolInvocationBadge.tsx`: `path.split("/").pop() || path`. -/
def jsFileName (path : String) : String :=
  match (jsSplitSlash path).getLast? with
  | some s => if s = "" then path else s
  | none => path

/-- Embedded from `ToolInvocationBadge.tsx`: `getToolDisplayInfo(toolName,
args)` returns an icon and a human-readable message for a tool invocation. -/
def getToolDisplayInfo (toolName : String) (args : Option ToolArgs) : ToolIcon × String :=
  if toolName = "str_replace_editor" then
    let path := jsOr (args.bind ToolArgs.path) "file"
    let fileName := jsFileName path
    match args.bind ToolArgs.command with
    | some "create" => (ToolIcon.filePlus, "Creating " ++ fileName)
    | some "str_replace" => (ToolIcon.fileEdit, "Editing " ++ fileName)
    | some "insert" => (ToolIcon.fileEdit, "Inserting into " ++ fileName)
    | some "view" => (ToolIcon.eye, "Viewing " ++ fileName)
    | some "undo_edit" => (ToolIcon.fileEdit, "Undoing edit in " ++ fileName)
    | _ => (ToolIcon.fileText, "Modifying " ++ fileName)
  else if toolName = "file_manager" then
    let path := jsOr (args.bind ToolArgs.path) "file"
    let fileName := jsFileName path
    let newFileName :=
      match args.bind ToolArgs.newPath with
      | some np => jsFileName np
      | none => ""
    match args.bind ToolArgs.command with
    | some "rename" =>
      (ToolIcon.folderEdit,
        if newFileName ≠ "" then "Renaming " ++ fileName ++ " to " ++ newFileName
        else "Renaming " ++ fileName)
    | some "delete" => (ToolIcon.trash, "Deleting " ++ fileName)
    | _ => (ToolIcon.folderEdit, "Managing " ++ fileName)
  else
    (ToolIcon.fileText, toolName)

/-- Embedded from `ToolInvocationBadge.tsx`: the `state` prop of the badge. -/
inductive ToolState where
  | stPartial
  | stPartialCall
  | stCall
  | stResult
deriving DecidableEq, Repr

/-- The observable render of the badge: which indicator is shown (completed
green dot versus loading spinner) and the icon and message text. -/
structure BadgeView where
  completed : Bool
  icon : ToolIcon
  message : String
deriving DecidableEq, Repr

/-- Embedded from `ToolInvocationBadge.tsx`: the component computes the
display info and shows the completed indicator exactly when
`state === "result" && result !== undefined`. -/
def toolInvocationBadge (toolName : String) (args : Option ToolArgs)
    (state : ToolState) (result : Option String) : BadgeView :=
  let info := getToolDisplayInfo toolName args
  let isCompleted : Bool :=
    match state, result with
    | ToolState.stResult, some _ => true
    | _, _ => false
  ⟨isCompleted, info.1, info.2⟩

/-- A minimal JSON value model for the chat request body; `jundef` models a
field whose value is `undefined` (dropped by `JSON.stringify`). -/
inductive JsonVal where
  | jstr (s : String)
  | jobj (fields : List (String × JsonVal))
  | jundef

/-- Association lookup on JSON object fields. -/
def olookup (k : String) : List (String × JsonVal) → Option JsonVal
  | [] => none
  | e :: rest => if e.1 = k then some e.2 else olookup k rest

/-- Object-spread override: replace the field in place if present, else
append it, matching `{...body, k: v}` field semantics. -/
def oupsert (k : String) (v : JsonVal) : List (String × JsonVal) → List (String × JsonVal)
  | [] => [(k, v)]
  | e :: rest => if e.1 = k then (k, v) :: rest else e :: oupsert k v rest

/-- The wire encoding of a VFS snapshot: each path maps to
`{type: "file", content}` or `{type: "directory"}` (spec section 6). -/
def encodeSnapshot (snap : List (String × VNode)) : List (String × JsonVal) :=
  snap.map (fun e =>
    (e.1,
      match e.2 with
      | VNode.file c =>
        JsonVal.jobj [("type", JsonVal.jstr "file"), ("content", JsonVal.jstr c)]
      | VNode.dir => JsonVal.jobj [("type", JsonVal.jstr "directory")]))

/-- Embedded from `chat-context.tsx`: the custom fetch of `ChatProvider`
builds `{...body, files: fileSystem.serialize(), projectId}`. -/
def customFetchBody (fs : VFS) (projectId : Option String)
    (body : List (String × JsonVal)) : List (String × JsonVal) :=
  oupsert "projectId"
    (match projectId with
     | some s => JsonVal.jstr s
     | none => JsonVal.jundef)
    (oupsert "files" (JsonVal.jobj (encodeSnapshot fs.serialize)) body)

/-- What the server receives for a field after `JSON.stringify`: a field
holding `undefined` is absent. -/
def sentLookup (k : String) (l : List (String × JsonVal)) : Option JsonVal :=
  match olookup k l with
  | some JsonVal.jundef => none
  | v => v


/-! Basic association-list lemmas. -/

theorem alookup_insertEntry (k : Key) (v : VNode) (l : List (Key × VNode)) (q : Key) :
    alookup q (insertEntry k v l) = if k = q then some v else alookup q l := by
  induction l with
  | nil => simp [insertEntry, alookup]
  | cons e rest ih =>
    by_cases he : e.1 = k
    · by_cases hq : k = q
      · simp [insertEntry, alookup, he, hq]
      · have h2 : ¬ e.1 = q := fun h => hq (he ▸ h)
        simp [insertEntry, alookup, he, hq, h2]
    · by_cases h2 : e.1 = q
      · have hq : ¬ k = q := fun h => he (h ▸ h2)
        simp only [insertEntry, he, if_false]
        simp [alookup, h2, hq]
      · simp [insertEntry, alookup, he, h2, ih]

theorem insertEntry_of_none (k : Key) (v : VNode) (l : List (Key × VNode))
    (h : alookup k l = none) : insertEntry k v l = l ++ [(k, v)] := by
  induction l with
  | nil => rfl
  | cons e rest ih =>
    by_cases he : e.1 = k
    · simp [alookup, he] at h
    · simp only [alookup, he, if_false] at h
      simp [insertEntry, he, ih h]

theorem alookup_append (q : Key) (l1 l2 : List (Key × VNode)) :
    alookup q (l1 ++ l2) =
      match alookup q l1 with
      | some v => some v
      | none => alookup q l2 := by
  induction l1 with
  | nil => simp [alookup]
  | cons e rest ih =>
    by_cases he : e.1 = q <;> simp [alookup, he, ih]

theorem alookup_eq_none_iff (k : Key) (l : List (Key × VNode)) :
    alookup k l = none ↔ k ∉ l.map Prod.fst := by
  induction l with
  | nil => simp [alookup]
  | cons e rest ih =>
    by_cases he : e.1 = k
    · simp only [alookup, he, if_true, List.map_cons]
      constructor
      · intro h
        exact absurd h (by simp)
      · intro h
        exact absurd (List.mem_cons_self _ _) (he ▸ h)
    · simp only [alookup, he, if_false, List.map_cons, List.mem_cons]
      rw [ih]
      constructor
      · intro h hk
        rcases hk with hk | hk
        · exact he hk.symm
        · exact h hk
      · intro h hk
        exact h (Or.inr hk)

theorem alookup_mem {k : Key} {v : VNode} {l : List (Key × VNode)}
    (h : alookup k l = some v) : (k, v) ∈ l := by
  induction l with
  | nil => simp [alookup] at h
  | cons e rest ih =>
    by_cases he : e.1 = k
    · simp only [alookup, he, if_true, Option.some_inj] at h
      have hev : e = (k, v) := Prod.ext_iff.mpr ⟨he, h⟩
      rw [← hev]
      exact List.mem_cons_self e rest
    · simp only [alookup, he, if_false] at h
      exact List.mem_cons_of_mem _ (ih h)

theorem alookup_of_mem_nodup {k : Key} {v : VNode} {l : List (Key × VNode)}
    (hm : (k, v) ∈ l) (hn : (l.map Prod.fst).Nodup) : alookup k l = some v := by
  induction l with
  | nil => simp at hm
  | cons e rest ih =>
    rcases List.mem_cons.mp hm with h | h
    · simp [← h, alookup]
    · have hk : k ∈ rest.map Prod.fst := List.mem_map.mpr ⟨(k, v), h, rfl⟩
      have hn2 : (e.1 :: rest.map Prod.fst).Nodup := by
        rw [List.map_cons] at hn
        exact hn
      have he : e.1 ≠ k := by
        intro hek
        exact (List.nodup_cons.mp hn2).1 (hek ▸ hk)
      simp only [alookup, he, if_false]
      exact ih h (List.nodup_cons.mp hn2).2

theorem alookup_of_perm {l1 l2 : List (Key × VNode)} (hp : List.Perm l1 l2)
    (hn : (l1.map Prod.fst).Nodup) (k : Key) : alookup k l1 = alookup k l2 := by
  cases h1 : alookup k l1 with
  | some v =>
    exact (alookup_of_mem_nodup (hp.mem_iff.mp (alookup_mem h1))
      (((hp.map Prod.fst).nodup_iff).mp hn)).symm
  | none =>
    cases h2 : alookup k l2 with
    | some v =>
      have hmem := hp.mem_iff.mpr (alookup_mem h2)
      have hcontra := alookup_of_mem_nodup hmem hn
      rw [h1] at hcontra
      simp at hcontra
    | none => rfl

theorem keys_insertEntry (k : Key) (v : VNode) (l : List (Key × VNode)) :
    (insertEntry k v l).map Prod.fst =
      if alookup k l = none then l.map Prod.fst ++ [k] else l.map Prod.fst := by
  induction l with
  | nil => simp [insertEntry, alookup]
  | cons e rest ih =>
    by_cases he : e.1 = k
    · simp [insertEntry, alookup, he]
    · simp only [insertEntry, he, if_false, alookup, List.map_cons]
      by_cases h : alookup k rest = none <;> simp [h] at ih ⊢ <;> simp [ih]

theorem nodupKeys_insertEntry (k : Key) (v : VNode) (l : List (Key × VNode))
    (hn : (l.map Prod.fst).Nodup) : ((insertEntry k v l).map Prod.fst).Nodup := by
  rw [keys_insertEntry]
  by_cases h : alookup k l = none
  · simp only [h, if_true]
    rw [List.nodup_append]
    exact ⟨hn, List.nodup_singleton k, by
      intro a ha hb
      simp at hb
      rw [hb] at ha
      exact (alookup_eq_none_iff k l).mp h ha⟩
  · simpa [h] using hn

/-! Path parsing and rendering lemmas. -/

theorem stringEta (s : String) : String.mk s.data = s := by
  cases s
  rfl

theorem splitChars_noslash (cs : List Char) (h : ∀ c ∈ cs, c ≠ '/') (rest : List Char)
    (acc : List Char) : splitChars (cs ++ rest) acc = splitChars rest (cs.reverse ++ acc) := by
  induction cs generalizing acc with
  | nil => simp
  | cons c cst ih =>
    have hc : ¬ c = '/' := h c (List.mem_cons_self _ _)
    simp only [List.cons_append, splitChars, hc, if_false, List.append_eq]
    rw [ih (fun x hx => h x (List.mem_cons_of_mem _ hx)) (c :: acc)]
    congr 1
    simp

theorem splitChars_no_slash_mem (cs : List Char) (acc : List Char) (hacc : '/' ∉ acc) :
    ∀ s ∈ splitChars cs acc, '/' ∉ s.data := by
  induction cs generalizing acc with
  | nil =>
    intro s hs
    simp only [splitChars, List.mem_singleton] at hs
    subst hs
    simpa using hacc
  | cons c cst ih =>
    intro s hs
    by_cases hc : c = '/'
    · simp only [splitChars, hc, if_true] at hs
      rcases List.mem_cons.mp hs with h | h
      · subst h
        simpa using hacc
      · exact ih [] (by simp) s h
    · simp only [splitChars, hc, if_false] at hs
      refine ih (c :: acc) ?_ s hs
      intro hmem
      rcases List.mem_cons.mp hmem with h | h
      · exact hc h.symm
      · exact hacc h

theorem validKey_pathSegments (p : String) : ValidKey (pathSegments p) := by
  intro s hs
  simp only [pathSegments, List.mem_filter] at hs
  refine ⟨by simpa using hs.2, ?_⟩
  exact splitChars_no_slash_mem p.data [] (by simp) s hs.1

theorem renderChars_cons (s : String) (t : Key) :
    renderChars (s :: t) = '/' :: (s.data ++ renderChars t) := rfl

theorem splitChars_renderChars (t : Key) (ht : ValidKey t) (acc : List Char) :
    splitChars (renderChars t) acc = String.mk acc.reverse :: t := by
  induction t generalizing acc with
  | nil => simp [renderChars, splitChars]
  | cons s t ih =>
    have hs : ValidSeg s := ht s (List.mem_cons_self _ _)
    have ht2 : ValidKey t := fun x hx => ht x (List.mem_cons_of_mem _ hx)
    rw [renderChars_cons]
    simp only [splitChars, if_true]
    have hnos : ∀ c ∈ s.data, c ≠ '/' := fun c hc he => hs.2 (he ▸ hc)
    rw [splitChars_noslash s.data hnos (renderChars t) []]
    rw [ih ht2 (s.data.reverse ++ [])]
    simp [stringEta]

theorem data_mk (l : List Char) : (String.mk l).data = l := rfl

theorem filter_ne_empty_cons (l : List String) :
    List.filter (fun s => s ≠ "") ("" :: l) = List.filter (fun s => s ≠ "") l := by
  simp

theorem filter_ne_empty_eq_self (l : List String) (h : ∀ a ∈ l, a ≠ "") :
    List.filter (fun s => s ≠ "") l = l :=
  List.filter_eq_self.mpr (fun a ha => by simp [h a ha])

theorem pathSegments_renderPath (k : Key) (hk : ValidKey k) : pathSegments (renderPath k) = k := by
  cases k with
  | nil => rfl
  | cons s t =>
    have h1 : renderPath (s :: t) = String.mk (renderChars (s :: t)) := by
      simp [renderPath]
    have h4 : pathSegments (renderPath (s :: t)) =
        (splitChars (renderChars (s :: t)) []).filter (fun s => s ≠ "") := by
      simp only [pathSegments, jsSplitSlash, h1, data_mk]
    rw [h4, splitChars_renderChars (s :: t) hk []]
    have h2 : String.mk ([] : List Char).reverse = "" := rfl
    rw [h2, filter_ne_empty_cons, filter_ne_empty_eq_self]
    intro a ha
    exact (hk a ha).1

/-! Proper-ancestor lemmas. -/

theorem mem_properAncestors {a k : Key} :
    a ∈ properAncestors k ↔ ∃ i, i < k.length - 1 ∧ a = k.take (i + 1) := by
  simp only [properAncestors, List.mem_map, List.mem_range]
  constructor
  · rintro ⟨i, hi, h⟩
    exact ⟨i, hi, h.symm⟩
  · rintro ⟨i, hi, h⟩
    exact ⟨i, hi, h.symm⟩

theorem properAncestors_ne_nil {a k : Key} (h : a ∈ properAncestors k) : a ≠ [] := by
  rcases mem_properAncestors.mp h with ⟨i, hi, ha⟩
  have hlen : a.length = min (i + 1) k.length := by
    rw [ha, List.length_take]
  have : 0 < a.length := by
    rw [hlen]
    omega
  exact List.ne_nil_of_length_pos this

theorem properAncestors_length_lt {a k : Key} (h : a ∈ properAncestors k) :
    a.length < k.length := by
  rcases mem_properAncestors.mp h with ⟨i, hi, ha⟩
  have hlen : a.length = min (i + 1) k.length := by
    rw [ha, List.length_take]
  omega

theorem properAncestors_isPre {a k : Key} (h : a ∈ properAncestors k) : a <+: k := by
  rcases mem_properAncestors.mp h with ⟨i, hi, ha⟩
  rw [ha]
  exact List.take_prefix _ _

/-! Well-formedness structural lemmas. -/

theorem wf_ancestors_aux (fs : VFS) (h : WF fs) :
    ∀ n k v, k.length = n → (k, v) ∈ fs.entries →
      ∀ a ∈ properAncestors k, fs.lookup a = some VNode.dir := by
  intro n
  induction n using Nat.strong_induction_on with
  | _ n ih =>
    intro k v hlen hm a ha
    rcases mem_properAncestors.mp ha with ⟨i, hi, haeq⟩
    have hk : k ≠ [] := by
      intro hknil
      rw [hknil] at hi
      simp at hi
    have hclose : fs.lookup k.dropLast = some VNode.dir := h.2.2.2 (k, v) hm hk
    have hpar : (k.dropLast, VNode.dir) ∈ fs.entries := alookup_mem hclose
    by_cases hcase : i + 1 = k.length - 1
    · have haa : a = k.dropLast := by
        rw [haeq, List.dropLast_eq_take, hcase]
      rw [haa]
      exact hclose
    · have hi2 : i + 1 < k.length - 1 := by omega
      have hdl : k.dropLast.length = k.length - 1 := by
        rw [List.dropLast_eq_take, List.length_take]
        omega
      have ha2 : a ∈ properAncestors k.dropLast := by
        refine mem_properAncestors.mpr ⟨i, by omega, ?_⟩
        rw [List.dropLast_eq_take, List.take_take]
        have hmin : min (i + 1) (k.length - 1) = i + 1 := by omega
        rw [hmin]
        exact haeq
      exact ih (k.length - 1) (by omega) k.dropLast VNode.dir hdl hpar a ha2

theorem wf_ancestors {fs : VFS} (h : WF fs) {k : Key} {v : VNode}
    (hm : (k, v) ∈ fs.entries) : ∀ a ∈ properAncestors k, fs.lookup a = some VNode.dir :=
  wf_ancestors_aux fs h k.length k v rfl hm

theorem wf_no_orphans {fs : VFS} (h : WF fs) {n : Key} (hn : fs.lookup n = none) :
    ∀ e ∈ fs.entries, ¬ (n <+: e.1) := by
  intro e he hpre2
  have htake : n = e.1.take n.length := List.prefix_iff_eq_take.mp hpre2
  have hle : n.length ≤ e.1.length := hpre2.length_le
  by_cases heq : n.length = e.1.length
  · have : n = e.1 := by
      rw [htake, heq, List.take_length]
    have hl : fs.lookup n = some e.2 := by
      rw [this]
      exact alookup_of_mem_nodup he h.1
    rw [hn] at hl
    simp at hl
  · have hlt : n.length < e.1.length := by omega
    have hnnil : n ≠ [] := by
      intro hnil
      rw [hnil] at hn
      rw [h.2.1] at hn
      simp at hn
    have hpos : 0 < n.length := List.length_pos.mpr hnnil
    have ha : n ∈ properAncestors e.1 := by
      refine mem_properAncestors.mpr ⟨n.length - 1, by omega, ?_⟩
      have heq1 : n.length - 1 + 1 = n.length := by omega
      rw [heq1]
      exact htake
    have := wf_ancestors h he n ha
    rw [hn] at this
    simp at this

/-! Characterization of ensureDirs and the create operations. -/

theorem vfs_lookup_entries (fs : VFS) (q : Key) : fs.lookup q = alookup q fs.entries := rfl

theorem ensureDirs_char (l : List Key) :
    ∀ fs : VFS, (∀ a ∈ l, ∀ c, fs.lookup a ≠ some (VNode.file c)) →
    ∃ extra, ensureDirs l fs = .ok ⟨fs.entries ++ extra⟩ ∧
      (∀ e ∈ extra, e.1 ∈ l ∧ e.2 = VNode.dir ∧ fs.lookup e.1 = none) := by
  induction l with
  | nil =>
    intro fs _
    exact ⟨[], by simp [ensureDirs], by simp⟩
  | cons a rest ih =>
    intro fs hnof
    cases hla : fs.lookup a with
    | some v =>
      cases v with
      | file c => exact absurd hla (hnof a (List.mem_cons_self _ _) c)
      | dir =>
        have step : ensureDirs (a :: rest) fs = ensureDirs rest fs := by
          simp [ensureDirs, hla]
        rcases ih fs (fun b hb c => hnof b (List.mem_cons_of_mem _ hb) c) with
          ⟨extra, heq, hprops⟩
        exact ⟨extra, step ▸ heq, fun e he =>
          ⟨List.mem_cons_of_mem _ (hprops e he).1, (hprops e he).2.1, (hprops e he).2.2⟩⟩
    | none =>
      have hins : insertEntry a VNode.dir fs.entries = fs.entries ++ [(a, VNode.dir)] :=
        insertEntry_of_none a VNode.dir fs.entries hla
      have step : ensureDirs (a :: rest) fs =
          ensureDirs rest ⟨fs.entries ++ [(a, VNode.dir)]⟩ := by
        simp [ensureDirs, hla, hins]
      have hnof2 : ∀ b ∈ rest, ∀ c,
          (⟨fs.entries ++ [(a, VNode.dir)]⟩ : VFS).lookup b ≠ some (VNode.file c) := by
        intro b hb c
        rw [vfs_lookup_entries, alookup_append]
        cases hfb : alookup b fs.entries with
        | some w =>
          simp only
          intro hw
          exact hnof b (List.mem_cons_of_mem _ hb) c (by rw [vfs_lookup_entries, hfb, hw])
        | none =>
          simp only [alookup]
          by_cases hab : a = b <;> simp [hab]
      rcases ih ⟨fs.entries ++ [(a, VNode.dir)]⟩ hnof2 with ⟨extra2, heq, hprops⟩
      refine ⟨(a, VNode.dir) :: extra2, ?_, ?_⟩
      · rw [step, heq]
        simp
      · intro e he
        rcases List.mem_cons.mp he with h | h
        · rw [h]
          exact ⟨List.mem_cons_self _ _, rfl, hla⟩
        · rcases hprops e h with ⟨h1, h2, h3⟩
          refine ⟨List.mem_cons_of_mem _ h1, h2, ?_⟩
          rw [vfs_lookup_entries, alookup_append] at h3
          cases hfb : alookup e.1 fs.entries with
          | some w => rw [hfb] at h3; simp at h3
          | none => rw [vfs_lookup_entries, hfb]

theorem ensureDirs_noop (l : List Key) (fs : VFS)
    (h : ∀ a ∈ l, fs.lookup a = some VNode.dir) : ensureDirs l fs = .ok fs := by
  rcases ensureDirs_char l fs (fun a ha c hc => by
    rw [h a ha] at hc
    simp at hc) with ⟨extra, heq, hprops⟩
  have hextra : extra = [] := by
    cases extra with
    | nil => rfl
    | cons e rest =>
      rcases hprops e (List.mem_cons_self _ _) with ⟨h1, _, h3⟩
      rw [h e.1 h1] at h3
      simp at h3
  rw [heq, hextra]
  simp

theorem createDirKey_existing (fs : VFS) (p : Key) (h : fs.lookup p = some VNode.dir) :
    fs.createDirKey p = .ok fs := by
  simp [VFS.createDirKey, h]

theorem createDirKey_fresh (fs : VFS) (p : Key) (h : fs.lookup p = none)
    (hanc : ∀ a ∈ properAncestors p, fs.lookup a = some VNode.dir) :
    fs.createDirKey p = .ok ⟨fs.entries ++ [(p, VNode.dir)]⟩ := by
  simp only [VFS.createDirKey, h]
  rw [ensureDirs_noop _ _ hanc]
  simp [insertEntry_of_none p VNode.dir fs.entries h]

theorem createFileKey_fresh (fs : VFS) (p : Key) (c : String) (h : fs.lookup p = none)
    (hanc : ∀ a ∈ properAncestors p, fs.lookup a = some VNode.dir) :
    fs.createFileKey p c = .ok ⟨fs.entries ++ [(p, VNode.file c)]⟩ := by
  simp only [VFS.createFileKey, h]
  rw [ensureDirs_noop _ _ hanc]
  simp [insertEntry_of_none p (VNode.file c) fs.entries h]

/-! Insertion sort by depth: permutation and sortedness. -/

theorem insertByDepth_perm (e : String × VNode) (l : List (String × VNode)) :
    List.Perm (insertByDepth e l) (e :: l) := by
  induction l with
  | nil => simp [insertByDepth]
  | cons x t ih =>
    by_cases h : entryDepth e ≤ entryDepth x
    · simp [insertByDepth, h]
    · simp only [insertByDepth, h, if_false]
      exact (ih.cons x).trans (List.Perm.swap e x t)

theorem sortByDepth_perm (l : List (String × VNode)) :
    List.Perm (sortByDepth l) l := by
  induction l with
  | nil => simp [sortByDepth]
  | cons e t ih =>
    have : sortByDepth (e :: t) = insertByDepth e (sortByDepth t) := rfl
    rw [this]
    exact (insertByDepth_perm e (sortByDepth t)).trans (ih.cons e)

theorem insertByDepth_pairwise (e : String × VNode) (l : List (String × VNode))
    (h : l.Pairwise (fun a b => entryDepth a ≤ entryDepth b)) :
    (insertByDepth e l).Pairwise (fun a b => entryDepth a ≤ entryDepth b) := by
  induction l with
  | nil => simp [insertByDepth]
  | cons x t ih =>
    by_cases hle : entryDepth e ≤ entryDepth x
    · simp only [insertByDepth, hle, if_true]
      refine List.Pairwise.cons ?_ h
      intro b hb
      rcases List.mem_cons.mp hb with hb | hb
      · rw [hb]
        exact hle
      · exact le_trans hle ((List.pairwise_cons.mp h).1 b hb)
    · simp only [insertByDepth, hle, if_false]
      have hx := List.pairwise_cons.mp h
      refine List.Pairwise.cons ?_ (ih hx.2)
      intro b hb
      have hb2 := (insertByDepth_perm e t).mem_iff.mp hb
      rcases List.mem_cons.mp hb2 with hb2 | hb2
      · rw [hb2]
        omega
      · exact hx.1 b hb2

theorem sortByDepth_pairwise (l : List (String × VNode)) :
    (sortByDepth l).Pairwise (fun a b => entryDepth a ≤ entryDepth b) := by
  induction l with
  | nil => simp [sortByDepth]
  | cons e t ih => exact insertByDepth_pairwise e (sortByDepth t) ih

/-! Characterization of the deserialize replay folds. -/

theorem createDirsAll_char (es : List (String × VNode)) :
    ∀ fs : VFS,
    es.Pairwise (fun a b => entryDepth a ≤ entryDepth b) →
    (es.map (fun e => pathSegments e.1)).Nodup →
    (∀ e ∈ es, ∀ a ∈ properAncestors (pathSegments e.1),
      fs.lookup a = some VNode.dir ∨ ∃ e2 ∈ es, pathSegments e2.1 = a) →
    (∀ e ∈ es, ∀ c, fs.lookup (pathSegments e.1) ≠ some (VNode.file c)) →
    ∃ fs2, createDirsAll fs es = .ok fs2 ∧
      fs2.entries = fs.entries ++
        ((es.map (fun e => pathSegments e.1)).filter
          (fun k => (fs.lookup k).isNone)).map (fun k => (k, VNode.dir)) := by
  induction es with
  | nil =>
    intro fs _ _ _ _
    exact ⟨fs, by simp [createDirsAll], by simp⟩
  | cons e rest ih =>
    intro fs hsort hnodup hanc hnof
    have hanc0 : ∀ a ∈ properAncestors (pathSegments e.1), fs.lookup a = some VNode.dir := by
      intro a ha
      rcases hanc e (List.mem_cons_self _ _) a ha with h | ⟨e2, he2, hpe2⟩
      · exact h
      · exfalso
        have halt : a.length < (pathSegments e.1).length := properAncestors_length_lt ha
        rcases List.mem_cons.mp he2 with h2 | h2
        · rw [h2] at hpe2
          rw [hpe2] at halt
          omega
        · have := (List.pairwise_cons.mp hsort).1 e2 h2
          simp only [entryDepth] at this
          rw [hpe2] at this
          omega
    have hnodup2 : ((rest.map (fun e => pathSegments e.1))).Nodup := by
      rw [List.map_cons] at hnodup
      exact (List.nodup_cons.mp hnodup).2
    have hhead : pathSegments e.1 ∉ rest.map (fun e => pathSegments e.1) := by
      rw [List.map_cons] at hnodup
      exact (List.nodup_cons.mp hnodup).1
    cases hl : fs.lookup (pathSegments e.1) with
    | some v =>
      cases v with
      | file c => exact absurd hl (hnof e (List.mem_cons_self _ _) c)
      | dir =>
        have step : createDirsAll fs (e :: rest) = createDirsAll fs rest := by
          have : fs.createDirectory e.1 = .ok fs := createDirKey_existing fs _ hl
          simp [createDirsAll, this]
        have hanc2 : ∀ e2 ∈ rest, ∀ a ∈ properAncestors (pathSegments e2.1),
            fs.lookup a = some VNode.dir ∨ ∃ e3 ∈ rest, pathSegments e3.1 = a := by
          intro e2 he2 a ha
          rcases hanc e2 (List.mem_cons_of_mem _ he2) a ha with h | ⟨e3, he3, hpe3⟩
          · exact Or.inl h
          · rcases List.mem_cons.mp he3 with h3 | h3
            · left
              rw [h3] at hpe3
              rw [← hpe3]
              exact hl
            · exact Or.inr ⟨e3, h3, hpe3⟩
        rcases ih fs hsort.of_cons hnodup2 hanc2
          (fun e2 he2 c => hnof e2 (List.mem_cons_of_mem _ he2) c) with ⟨fs2, heq, hres⟩
        refine ⟨fs2, step ▸ heq, ?_⟩
        rw [hres]
        congr 1
        rw [List.map_cons, List.filter_cons]
        simp [hl]
    | none =>
      have hstep1 : fs.createDirectory e.1 = .ok ⟨fs.entries ++ [(pathSegments e.1, VNode.dir)]⟩ :=
        createDirKey_fresh fs _ hl hanc0
      have step : createDirsAll fs (e :: rest) =
          createDirsAll ⟨fs.entries ++ [(pathSegments e.1, VNode.dir)]⟩ rest := by
        simp [createDirsAll, hstep1]
      have hlook2 : ∀ q : Key,
          (⟨fs.entries ++ [(pathSegments e.1, VNode.dir)]⟩ : VFS).lookup q =
            match fs.lookup q with
            | some v => some v
            | none => if pathSegments e.1 = q then some VNode.dir else none := by
        intro q
        rw [vfs_lookup_entries, alookup_append, vfs_lookup_entries]
        cases alookup q fs.entries with
        | some v => rfl
        | none => simp [alookup]
      have hanc2 : ∀ e2 ∈ rest, ∀ a ∈ properAncestors (pathSegments e2.1),
          (⟨fs.entries ++ [(pathSegments e.1, VNode.dir)]⟩ : VFS).lookup a = some VNode.dir ∨
            ∃ e3 ∈ rest, pathSegments e3.1 = a := by
        intro e2 he2 a ha
        rcases hanc e2 (List.mem_cons_of_mem _ he2) a ha with h | ⟨e3, he3, hpe3⟩
        · left
          rw [hlook2, h]
        · rcases List.mem_cons.mp he3 with h3 | h3
          · left
            rw [h3] at hpe3
            rw [hlook2, ← hpe3, hl]
            simp
          · exact Or.inr ⟨e3, h3, hpe3⟩
      have hnof2 : ∀ e2 ∈ rest, ∀ c,
          (⟨fs.entries ++ [(pathSegments e.1, VNode.dir)]⟩ : VFS).lookup (pathSegments e2.1) ≠
            some (VNode.file c) := by
        intro e2 he2 c
        rw [hlook2]
        cases hq : fs.lookup (pathSegments e2.1) with
        | some w =>
          simp only
          intro hw
          exact hnof e2 (List.mem_cons_of_mem _ he2) c (by rw [hq, hw])
        | none =>
          by_cases hpq : pathSegments e.1 = pathSegments e2.1 <;> simp [hpq]
      rcases ih ⟨fs.entries ++ [(pathSegments e.1, VNode.dir)]⟩ hsort.of_cons hnodup2
        hanc2 hnof2 with ⟨fs2, heq, hres⟩
      refine ⟨fs2, step ▸ heq, ?_⟩
      rw [hres]
      have hfilcong : (rest.map (fun e => pathSegments e.1)).filter
            (fun k => ((⟨fs.entries ++ [(pathSegments e.1, VNode.dir)]⟩ : VFS).lookup k).isNone) =
          (rest.map (fun e => pathSegments e.1)).filter (fun k => (fs.lookup k).isNone) := by
        refine List.filter_congr ?_
        intro k hk
        have hkne : pathSegments e.1 ≠ k := fun h => hhead (h ▸ hk)
        rw [hlook2]
        cases fs.lookup k with
        | some v => rfl
        | none => simp [hkne]
      rw [hfilcong]
      rw [List.map_cons, List.filter_cons]
      simp only [hl, Option.isNone_none, if_true]
      simp [List.append_assoc]

theorem createFilesAll_char (es : List (String × VNode)) :
    ∀ fs : VFS,
    (∀ e ∈ es, ∃ c, e.2 = VNode.file c) →
    (∀ e ∈ es, fs.lookup (pathSegments e.1) = none) →
    (es.map (fun e => pathSegments e.1)).Nodup →
    (∀ e ∈ es, ∀ a ∈ properAncestors (pathSegments e.1), fs.lookup a = some VNode.dir) →
    ∃ fs2, createFilesAll fs es = .ok fs2 ∧
      fs2.entries = fs.entries ++ es.map (fun e => (pathSegments e.1, e.2)) := by
  induction es with
  | nil =>
    intro fs _ _ _ _
    exact ⟨fs, by simp [createFilesAll], by simp⟩
  | cons e rest ih =>
    intro fs hfile hfresh hnodup hanc
    rcases hfile e (List.mem_cons_self _ _) with ⟨c, hc⟩
    have hl : fs.lookup (pathSegments e.1) = none := hfresh e (List.mem_cons_self _ _)
    have hstep1 : fs.createFile e.1 c = .ok ⟨fs.entries ++ [(pathSegments e.1, VNode.file c)]⟩ :=
      createFileKey_fresh fs _ c hl (hanc e (List.mem_cons_self _ _))
    have hdecomp : ∃ p cc, e = (p, VNode.file cc) ∧ cc = c ∧ p = e.1 := by
      cases e with
      | mk p w =>
        cases w with
        | file cc => exact ⟨p, cc, by simp_all, by simpa using hc, rfl⟩
        | dir => simp at hc
    rcases hdecomp with ⟨p, cc, he, hcc, hp⟩
    have step : createFilesAll fs (e :: rest) =
        createFilesAll ⟨fs.entries ++ [(pathSegments e.1, VNode.file c)]⟩ rest := by
      conv_lhs => rw [he]
      simp only [createFilesAll]
      rw [hp, hcc, hstep1]
    have hnodup2 : ((rest.map (fun e => pathSegments e.1))).Nodup := by
      rw [List.map_cons] at hnodup
      exact (List.nodup_cons.mp hnodup).2
    have hhead : pathSegments e.1 ∉ rest.map (fun e => pathSegments e.1) := by
      rw [List.map_cons] at hnodup
      exact (List.nodup_cons.mp hnodup).1
    have hlook2 : ∀ q : Key,
        (⟨fs.entries ++ [(pathSegments e.1, VNode.file c)]⟩ : VFS).lookup q =
          match fs.lookup q with
          | some v => some v
          | none => if pathSegments e.1 = q then some (VNode.file c) else none := by
      intro q
      rw [vfs_lookup_entries, alookup_append, vfs_lookup_entries]
      cases alookup q fs.entries with
      | some v => rfl
      | none => simp [alookup]
    have hfresh2 : ∀ e2 ∈ rest,
        (⟨fs.entries ++ [(pathSegments e.1, VNode.file c)]⟩ : VFS).lookup
          (pathSegments e2.1) = none := by
      intro e2 he2
      have hkne : pathSegments e.1 ≠ pathSegments e2.1 := by
        intro hcontra
        exact hhead (hcontra ▸ List.mem_map.mpr ⟨e2, he2, rfl⟩)
      rw [hlook2, hfresh e2 (List.mem_cons_of_mem _ he2)]
      simp [hkne]
    have hanc2 : ∀ e2 ∈ rest, ∀ a ∈ properAncestors (pathSegments e2.1),
        (⟨fs.entries ++ [(pathSegments e.1, VNode.file c)]⟩ : VFS).lookup a =
          some VNode.dir := by
      intro e2 he2 a ha
      rw [hlook2, hanc e2 (List.mem_cons_of_mem _ he2) a ha]
    rcases ih ⟨fs.entries ++ [(pathSegments e.1, VNode.file c)]⟩
      (fun e2 he2 => hfile e2 (List.mem_cons_of_mem _ he2)) hfresh2 hnodup2 hanc2 with
      ⟨fs2, heq, hres⟩
    refine ⟨fs2, step ▸ heq, ?_⟩
    rw [hres]
    simp only [List.map_cons]
    rw [hc, List.append_assoc]
    rfl

/-! Helpers for the deserialize round trip. -/

theorem alookup_map_dirlist (L : List Key) (q : Key) :
    alookup q (L.map (fun k => (k, VNode.dir))) = if q ∈ L then some VNode.dir else none := by
  induction L with
  | nil => simp [alookup]
  | cons a rest ih =>
    by_cases h : a = q
    · simp [alookup, h]
    · have h2 : ¬ q = a := fun hc => h hc.symm
      simp [alookup, h, h2, ih]

theorem emptyVFS_lookup (q : Key) :
    emptyVFS.lookup q = if ([] : Key) = q then some VNode.dir else none := by
  by_cases h : ([] : Key) = q <;> simp [emptyVFS, VFS.lookup, alookup, h]

theorem wf_keyval {T : VFS} (h : WF T) {k : Key} {v w : VNode}
    (h1 : (k, v) ∈ T.entries) (h2 : (k, w) ∈ T.entries) : v = w := by
  have e1 := alookup_of_mem_nodup h1 h.1
  have e2 := alookup_of_mem_nodup h2 h.1
  rw [e1] at e2
  exact Option.some_inj.mp e2

theorem isDirEntry_iff {α : Type} (e : α × VNode) : isDirEntry e = true ↔ e.2 = VNode.dir := by
  cases h : e.2 <;> simp [isDirEntry, h]

theorem not_isDirEntry_iff {α : Type} (e : α × VNode) :
    isDirEntry e = false ↔ ∃ c, e.2 = VNode.file c := by
  cases h : e.2 <;> simp [isDirEntry, h]

theorem filter_map_comm {α β : Type} (f : α → β) (p : β → Bool) (l : List α) :
    (l.map f).filter p = (l.filter (fun a => p (f a))).map f := by
  induction l with
  | nil => rfl
  | cons a t ih =>
    by_cases h : p (f a) = true <;> simp [List.filter_cons, h, ih]

theorem perm_cons_filter_ne {α : Type} [DecidableEq α] (l : List α) (a : α)
    (hn : l.Nodup) (ha : a ∈ l) :
    List.Perm (a :: l.filter (fun x => decide (x ≠ a))) l := by
  induction l with
  | nil => simp at ha
  | cons b t ih =>
    by_cases hba : b = a
    · subst hba
      have hfil : t.filter (fun x => decide (x ≠ b)) = t := by
        refine List.filter_eq_self.mpr ?_
        intro x hx
        have hxb : x ≠ b := fun hc => (List.nodup_cons.mp hn).1 (hc ▸ hx)
        simp [hxb]
      have hstep : (b :: t).filter (fun x => decide (x ≠ b)) = t := by
        rw [List.filter_cons_of_neg (by simp)]
        exact hfil
      rw [hstep]
    · have hat : a ∈ t := by
        rcases List.mem_cons.mp ha with h | h
        · exact absurd h.symm hba
        · exact h
      have hfil : (b :: t).filter (fun x => decide (x ≠ a)) =
          b :: t.filter (fun x => decide (x ≠ a)) := by
        simp [List.filter_cons, hba]
      rw [hfil]
      exact (List.Perm.swap b a _).trans ((ih (List.nodup_cons.mp hn).2 hat).cons b)

/-- C1: for every well-formed tree, deserializing the serialized snapshot
succeeds and produces a tree that is observably identical: it holds the
same node (same type, same content) at every path, and serializing it again
yields the same snapshot up to mapping order. -/
theorem vfs_serialize_roundtrip (T : VFS) (h : WF T) :
    ∃ T2, deserialize T.serialize = .ok T2 ∧
      (∀ k : Key, T2.lookup k = T.lookup k) ∧
      List.Perm T2.serialize T.serialize := by
  have hval : ∀ e ∈ T.entries, ValidKey e.1 := h.2.2.1
  have hroot : T.lookup [] = some VNode.dir := h.2.1
  have hrootmem : ((([] : Key), VNode.dir)) ∈ T.entries := alookup_mem hroot
  have hser : T.serialize = T.entries.map (fun e => (renderPath e.1, e.2)) := rfl
  -- the directory part of the snapshot
  have hdirs0 : T.serialize.filter isDirEntry =
      (T.entries.filter (fun e => isDirEntry e)).map (fun e => (renderPath e.1, e.2)) := by
    rw [hser, filter_map_comm]
    exact congrArg _ (List.filter_congr (fun a _ => rfl))
  have hkeyeq : ∀ e ∈ T.entries, pathSegments (renderPath e.1) = e.1 := by
    intro e he
    exact pathSegments_renderPath e.1 (hval e he)
  -- keys of the sorted directory entries
  have hpermD : List.Perm (sortByDepth (T.serialize.filter isDirEntry))
      (T.serialize.filter isDirEntry) := sortByDepth_perm _
  have hdirkeys : (T.serialize.filter isDirEntry).map (fun e => pathSegments e.1) =
      (T.entries.filter (fun e => isDirEntry e)).map Prod.fst := by
    rw [hdirs0, List.map_map]
    refine List.map_congr_left ?_
    intro e he
    exact hkeyeq e (List.mem_of_mem_filter he)
  have hnodupD : ((sortByDepth (T.serialize.filter isDirEntry)).map
      (fun e => pathSegments e.1)).Nodup := by
    refine ((hpermD.map (fun e => pathSegments e.1)).nodup_iff).mpr ?_
    rw [hdirkeys]
    exact h.1.sublist ((List.filter_sublist T.entries).map Prod.fst)
  have hmemD : ∀ a : Key, ((a, VNode.dir) ∈ T.entries) →
      (renderPath a, VNode.dir) ∈ sortByDepth (T.serialize.filter isDirEntry) := by
    intro a ha
    refine hpermD.mem_iff.mpr ?_
    rw [hdirs0]
    exact List.mem_map.mpr ⟨(a, VNode.dir), List.mem_filter.mpr ⟨ha, by simp [isDirEntry]⟩, rfl⟩
  have hancD : ∀ e ∈ sortByDepth (T.serialize.filter isDirEntry),
      ∀ a ∈ properAncestors (pathSegments e.1),
        emptyVFS.lookup a = some VNode.dir ∨
          ∃ e2 ∈ sortByDepth (T.serialize.filter isDirEntry), pathSegments e2.1 = a := by
    intro e he a ha
    have he0 : e ∈ T.serialize.filter isDirEntry := hpermD.mem_iff.mp he
    rw [hdirs0] at he0
    rcases List.mem_map.mp he0 with ⟨e2, he2, hge⟩
    have hkey : pathSegments e.1 = e2.1 := by
      rw [← hge]
      exact hkeyeq e2 (List.mem_of_mem_filter he2)
    rw [hkey] at ha
    have hda : T.lookup a = some VNode.dir :=
      wf_ancestors h (List.mem_of_mem_filter he2 :
        ((e2.1, e2.2) ∈ T.entries)) a ha
    right
    refine ⟨(renderPath a, VNode.dir), hmemD a (alookup_mem hda), ?_⟩
    exact hkeyeq (a, VNode.dir) (alookup_mem hda)
  have hnofD : ∀ e ∈ sortByDepth (T.serialize.filter isDirEntry),
      ∀ c, emptyVFS.lookup (pathSegments e.1) ≠ some (VNode.file c) := by
    intro e _ c
    rw [emptyVFS_lookup]
    by_cases hq : ([] : Key) = pathSegments e.1 <;> simp [hq]
  rcases createDirsAll_char (sortByDepth (T.serialize.filter isDirEntry)) emptyVFS
    (sortByDepth_pairwise _) hnodupD hancD hnofD with ⟨fs1, heq1, hentries1⟩
  -- characterize lookups in the directory-phase tree
  have hlook1 : ∀ q : Key, fs1.lookup q =
      if ([] : Key) = q then some VNode.dir
      else if q ∈ ((sortByDepth (T.serialize.filter isDirEntry)).map
          (fun e => pathSegments e.1)).filter (fun k => (emptyVFS.lookup k).isNone)
        then some VNode.dir else none := by
    intro q
    rw [vfs_lookup_entries, hentries1, alookup_append]
    have hleft : alookup q emptyVFS.entries = emptyVFS.lookup q := rfl
    rw [hleft, emptyVFS_lookup]
    by_cases hq : ([] : Key) = q
    · simp [hq]
    · simp only [hq, if_false]
      rw [alookup_map_dirlist]
  have hDKF : ∀ a : Key,
      (a ∈ ((sortByDepth (T.serialize.filter isDirEntry)).map
        (fun e => pathSegments e.1)).filter (fun k => (emptyVFS.lookup k).isNone)) ↔
      (a ≠ [] ∧ (a, VNode.dir) ∈ T.entries) := by
    intro a
    rw [List.mem_filter]
    constructor
    · rintro ⟨hmem, hnone⟩
      have hne : a ≠ [] := by
        intro hnil
        rw [hnil, emptyVFS_lookup] at hnone
        simp at hnone
      refine ⟨hne, ?_⟩
      have hmem2 := (hpermD.map (fun e => pathSegments e.1)).mem_iff.mp hmem
      rw [hdirkeys] at hmem2
      rcases List.mem_map.mp hmem2 with ⟨e2, he2, hke⟩
      have hd : e2.2 = VNode.dir := (isDirEntry_iff e2).mp (List.mem_filter.mp he2).2
      have he2a : e2 = (a, VNode.dir) := Prod.ext_iff.mpr ⟨hke, hd⟩
      rw [← he2a]
      exact List.mem_of_mem_filter he2
    · rintro ⟨hne, hmem⟩
      constructor
      · have hmm : (renderPath a, VNode.dir) ∈ sortByDepth (T.serialize.filter isDirEntry) :=
          hmemD a hmem
        have hmm2 : pathSegments (renderPath a) ∈
            (sortByDepth (T.serialize.filter isDirEntry)).map (fun e => pathSegments e.1) :=
          List.mem_map_of_mem (fun e => pathSegments e.1) hmm
        rw [hkeyeq (a, VNode.dir) hmem] at hmm2
        exact hmm2
      · have hc2 : ¬ (([] : Key) = a) := fun hc => hne hc.symm
        rw [emptyVFS_lookup]
        simp [hc2]
  -- the file part of the snapshot
  have hfiles0 : T.serialize.filter (fun e => !(isDirEntry e)) =
      (T.entries.filter (fun e => !(isDirEntry e))).map (fun e => (renderPath e.1, e.2)) := by
    rw [hser, filter_map_comm]
    exact congrArg _ (List.filter_congr (fun a _ => rfl))
  have hfileF : ∀ e ∈ T.serialize.filter (fun e => !(isDirEntry e)),
      ∃ c, e.2 = VNode.file c := by
    intro e he
    have := (List.mem_filter.mp he).2
    simp only [Bool.not_eq_true'] at this
    exact (not_isDirEntry_iff e).mp this
  have hfilekey : ∀ e ∈ T.serialize.filter (fun e => !(isDirEntry e)),
      ∃ e2 ∈ T.entries, ∃ c, e2.2 = VNode.file c ∧ pathSegments e.1 = e2.1 ∧
        e = (renderPath e2.1, e2.2) := by
    intro e he
    rw [hfiles0] at he
    rcases List.mem_map.mp he with ⟨e2, he2, hge⟩
    have hmem2 := List.mem_of_mem_filter he2
    have hf := (List.mem_filter.mp he2).2
    simp only [Bool.not_eq_true'] at hf
    rcases (not_isDirEntry_iff e2).mp hf with ⟨c, hc⟩
    exact ⟨e2, hmem2, c, hc, by rw [← hge]; exact hkeyeq e2 hmem2, hge.symm⟩
  have hfilene : ∀ e2 ∈ T.entries, (∀ c, e2.2 = VNode.file c → e2.1 ≠ []) := by
    intro e2 he2 c hc hnil
    have hmem2 : ((([] : Key), VNode.file c)) ∈ T.entries := by
      have he22 : e2 = ([], VNode.file c) := Prod.ext_iff.mpr ⟨hnil, hc⟩
      rw [← he22]
      exact he2
    have := wf_keyval h hrootmem hmem2
    simp at this
  have hfreshF : ∀ e ∈ T.serialize.filter (fun e => !(isDirEntry e)),
      fs1.lookup (pathSegments e.1) = none := by
    intro e he
    rcases hfilekey e he with ⟨e2, he2, c, hc, hkey, _⟩
    rw [hkey, hlook1]
    have hne : e2.1 ≠ [] := hfilene e2 he2 c hc
    have hne2 : ¬ (([] : Key) = e2.1) := fun hc2 => hne hc2.symm
    simp only [hne2, if_false]
    have : e2.1 ∉ ((sortByDepth (T.serialize.filter isDirEntry)).map
        (fun e => pathSegments e.1)).filter (fun k => (emptyVFS.lookup k).isNone) := by
      intro hmem
      rcases (hDKF e2.1).mp hmem with ⟨_, hdir⟩
      have he2' : (e2.1, VNode.file c) ∈ T.entries := by
        have he22 : e2 = (e2.1, VNode.file c) := Prod.ext_iff.mpr ⟨rfl, hc⟩
        rw [← he22]
        exact he2
      have := wf_keyval h hdir he2'
      simp at this
    simp [this]
  have hnodupF : ((T.serialize.filter (fun e => !(isDirEntry e))).map
      (fun e => pathSegments e.1)).Nodup := by
    have : (T.serialize.filter (fun e => !(isDirEntry e))).map (fun e => pathSegments e.1) =
        (T.entries.filter (fun e => !(isDirEntry e))).map Prod.fst := by
      rw [hfiles0, List.map_map]
      refine List.map_congr_left ?_
      intro e he
      exact hkeyeq e (List.mem_of_mem_filter he)
    rw [this]
    exact h.1.sublist ((List.filter_sublist T.entries).map Prod.fst)
  have hancF : ∀ e ∈ T.serialize.filter (fun e => !(isDirEntry e)),
      ∀ a ∈ properAncestors (pathSegments e.1), fs1.lookup a = some VNode.dir := by
    intro e he a ha
    rcases hfilekey e he with ⟨e2, he2, c, hc, hkey, _⟩
    rw [hkey] at ha
    have hda : T.lookup a = some VNode.dir := wf_ancestors h he2 a ha
    rw [hlook1]
    by_cases hq : ([] : Key) = a
    · simp [hq]
    · simp only [hq, if_false]
      have : a ∈ ((sortByDepth (T.serialize.filter isDirEntry)).map
          (fun e => pathSegments e.1)).filter (fun k => (emptyVFS.lookup k).isNone) :=
        (hDKF a).mpr ⟨fun hc2 => hq hc2.symm, alookup_mem hda⟩
      simp [this]
  rcases createFilesAll_char (T.serialize.filter (fun e => !(isDirEntry e))) fs1
    hfileF hfreshF hnodupF hancF with ⟨T2, heq2, hentries2⟩
  -- the deserialization equation
  have hdeq : deserialize T.serialize = .ok T2 := by
    have hunfold : deserialize T.serialize =
        match createDirsAll emptyVFS (sortByDepth (T.serialize.filter isDirEntry)) with
        | .error _ => .error VfsError.InvalidSnapshot
        | .ok fsx =>
          match createFilesAll fsx (T.serialize.filter (fun e => !(isDirEntry e))) with
          | .error _ => .error VfsError.InvalidSnapshot
          | .ok fsy => .ok fsy := rfl
    rw [hunfold]
    simp only [heq1, heq2]
  -- entries of T2 are a permutation of the entries of T
  have hTnodup : T.entries.Nodup := List.Nodup.of_map Prod.fst h.1
  have hpermfinal : List.Perm T2.entries T.entries := by
    rw [hentries2, hentries1]
    have hfilesMapped : (T.serialize.filter (fun e => !(isDirEntry e))).map
        (fun e => (pathSegments e.1, e.2)) =
        T.entries.filter (fun e => !(isDirEntry e)) := by
      rw [hfiles0, List.map_map]
      have hpt : ∀ e ∈ T.entries.filter (fun e => !(isDirEntry e)),
          ((fun e => (pathSegments e.1, e.2)) ∘
            (fun e : Key × VNode => (renderPath e.1, e.2))) e = id e := by
        intro e he
        simp only [Function.comp, id]
        rw [hkeyeq e (List.mem_of_mem_filter he)]
      rw [List.map_congr_left hpt, List.map_id]
    rw [hfilesMapped]
    have hpermDK : List.Perm
        (((sortByDepth (T.serialize.filter isDirEntry)).map
          (fun e => pathSegments e.1)).filter (fun k => (emptyVFS.lookup k).isNone))
        (((T.entries.filter (fun e => isDirEntry e)).filter
          (fun e => (emptyVFS.lookup e.1).isNone)).map Prod.fst) := by
      have h1 := (hpermD.map (fun e => pathSegments e.1)).filter
        (fun k => (emptyVFS.lookup k).isNone)
      rw [hdirkeys] at h1
      rw [filter_map_comm Prod.fst (fun k => (emptyVFS.lookup k).isNone)] at h1
      exact h1
    have hmapDK : (((T.entries.filter (fun e => isDirEntry e)).filter
          (fun e => (emptyVFS.lookup e.1).isNone)).map Prod.fst).map
            (fun k => (k, VNode.dir)) =
        (T.entries.filter (fun e => isDirEntry e)).filter
          (fun e => (emptyVFS.lookup e.1).isNone) := by
      rw [List.map_map]
      have hpt : ∀ e ∈ (T.entries.filter (fun e => isDirEntry e)).filter
          (fun e => (emptyVFS.lookup e.1).isNone),
          ((fun k => (k, VNode.dir)) ∘ Prod.fst) e = id e := by
        intro e he
        have hd : e.2 = VNode.dir :=
          (isDirEntry_iff e).mp (List.mem_filter.mp (List.mem_of_mem_filter he)).2
        simp only [Function.comp, id]
        rw [← hd]
      rw [List.map_congr_left hpt, List.map_id]
    have hpermDK2 : List.Perm
        ((((sortByDepth (T.serialize.filter isDirEntry)).map
          (fun e => pathSegments e.1)).filter
            (fun k => (emptyVFS.lookup k).isNone)).map (fun k => (k, VNode.dir)))
        ((T.entries.filter (fun e => isDirEntry e)).filter
          (fun e => (emptyVFS.lookup e.1).isNone)) := by
      have := hpermDK.map (fun k => (k, VNode.dir))
      rw [hmapDK] at this
      exact this
    -- the filtered directory entries together with the root are all of them
    have hFDnodup : (T.entries.filter (fun e => isDirEntry e)).Nodup :=
      hTnodup.sublist (List.filter_sublist T.entries)
    have hrootFD : ((([] : Key), VNode.dir)) ∈ T.entries.filter (fun e => isDirEntry e) :=
      List.mem_filter.mpr ⟨hrootmem, by simp [isDirEntry]⟩
    have hFD2 : (T.entries.filter (fun e => isDirEntry e)).filter
          (fun e => (emptyVFS.lookup e.1).isNone) =
        (T.entries.filter (fun e => isDirEntry e)).filter
          (fun x => decide (x ≠ (([] : Key), VNode.dir))) := by
      refine List.filter_congr ?_
      intro e he
      by_cases hroot2 : e = (([] : Key), VNode.dir)
      · rw [hroot2]
        simp [emptyVFS_lookup]
      · have hd : e.2 = VNode.dir := (isDirEntry_iff e).mp (List.mem_filter.mp he).2
        have hne : e.1 ≠ [] := by
          intro hnil
          exact hroot2 (Prod.ext_iff.mpr ⟨hnil, hd⟩)
        have hc2 : ¬ (([] : Key) = e.1) := fun hc => hne hc.symm
        rw [emptyVFS_lookup]
        simp [hc2, hroot2]
    have hrootcons : List.Perm
        (((([] : Key), VNode.dir)) :: (T.entries.filter (fun e => isDirEntry e)).filter
          (fun e => (emptyVFS.lookup e.1).isNone))
        (T.entries.filter (fun e => isDirEntry e)) := by
      rw [hFD2]
      exact perm_cons_filter_ne _ _ hFDnodup hrootFD
    -- assemble
    have hleft : List.Perm
        (emptyVFS.entries ++
          (((sortByDepth (T.serialize.filter isDirEntry)).map
            (fun e => pathSegments e.1)).filter
              (fun k => (emptyVFS.lookup k).isNone)).map (fun k => (k, VNode.dir)))
        (T.entries.filter (fun e => isDirEntry e)) := by
      have hstep : List.Perm
          (emptyVFS.entries ++
            (((sortByDepth (T.serialize.filter isDirEntry)).map
              (fun e => pathSegments e.1)).filter
                (fun k => (emptyVFS.lookup k).isNone)).map (fun k => (k, VNode.dir)))
          (emptyVFS.entries ++
            (T.entries.filter (fun e => isDirEntry e)).filter
              (fun e => (emptyVFS.lookup e.1).isNone)) :=
        (List.Perm.refl emptyVFS.entries).append hpermDK2
      refine hstep.trans ?_
      have : emptyVFS.entries ++
          (T.entries.filter (fun e => isDirEntry e)).filter
            (fun e => (emptyVFS.lookup e.1).isNone) =
          (((([] : Key), VNode.dir)) :: (T.entries.filter (fun e => isDirEntry e)).filter
            (fun e => (emptyVFS.lookup e.1).isNone)) := rfl
      rw [this]
      exact hrootcons
    have := hleft.append (List.Perm.refl (T.entries.filter (fun e => !(isDirEntry e))))
    refine this.trans ?_
    exact List.filter_append_perm isDirEntry T.entries
  refine ⟨T2, hdeq, ?_, ?_⟩
  · intro k
    have hnodupT2 : (T2.entries.map Prod.fst).Nodup :=
      ((hpermfinal.map Prod.fst).nodup_iff).mpr h.1
    exact alookup_of_perm hpermfinal hnodupT2 k
  · exact hpermfinal.map (fun e => (renderPath e.1, e.2))

/-! Support for the path-normalization and conflict claims. -/

theorem createFileKey_ok {fs fs2 : VFS} {p : Key} {c : String}
    (h : fs.createFileKey p c = .ok fs2) :
    ∃ fsE, ensureDirs (properAncestors p) fs = .ok fsE ∧
      fs2 = ⟨insertEntry p (VNode.file c) fsE.entries⟩ := by
  unfold VFS.createFileKey at h
  cases hl : fs.lookup p with
  | some v =>
    cases v with
    | dir =>
      rw [hl] at h
      simp at h
    | file c0 =>
      rw [hl] at h
      cases hE : ensureDirs (properAncestors p) fs with
      | error er => rw [hE] at h; simp at h
      | ok fsE =>
        rw [hE] at h
        simp only [Except.ok.injEq] at h
        exact ⟨fsE, rfl, h.symm⟩
  | none =>
    rw [hl] at h
    cases hE : ensureDirs (properAncestors p) fs with
    | error er => rw [hE] at h; simp at h
    | ok fsE =>
      rw [hE] at h
      simp only [Except.ok.injEq] at h
      exact ⟨fsE, rfl, h.symm⟩

theorem createFileKey_ok_not_dir {fs fs2 : VFS} {p : Key} {c : String}
    (h : fs.createFileKey p c = .ok fs2) : fs.lookup p ≠ some VNode.dir := by
  intro hl
  unfold VFS.createFileKey at h
  rw [hl] at h
  simp at h

theorem nodupKeys_ensureDirs {l : List Key} :
    ∀ {fs fsE : VFS}, ensureDirs l fs = .ok fsE → NodupKeys fs → NodupKeys fsE := by
  induction l with
  | nil =>
    intro fs fsE h hn
    simp only [ensureDirs, Except.ok.injEq] at h
    rw [← h]
    exact hn
  | cons a rest ih =>
    intro fs fsE h hn
    unfold ensureDirs at h
    cases hl : fs.lookup a with
    | some v =>
      cases v with
      | dir =>
        rw [hl] at h
        exact ih h hn
      | file c =>
        rw [hl] at h
        simp at h
    | none =>
      rw [hl] at h
      exact ih h (nodupKeys_insertEntry a VNode.dir fs.entries hn)

theorem filter_key_eq_nil {l : List (Key × VNode)} {k : Key} (h : k ∉ l.map Prod.fst) :
    l.filter (fun e => decide (e.1 = k)) = [] := by
  induction l with
  | nil => rfl
  | cons e rest ih =>
    rw [List.map_cons] at h
    have hne : e.1 ≠ k := fun hc => h (List.mem_cons.mpr (Or.inl hc.symm))
    have hrest : k ∉ rest.map Prod.fst := fun hc => h (List.mem_cons.mpr (Or.inr hc))
    rw [List.filter_cons_of_neg (by simp [hne])]
    exact ih hrest

theorem count_key_one {l : List (Key × VNode)} (hn : (l.map Prod.fst).Nodup) {k : Key}
    {v : VNode} (hl : alookup k l = some v) :
    (l.filter (fun e => decide (e.1 = k))).length = 1 := by
  induction l with
  | nil => simp [alookup] at hl
  | cons e rest ih =>
    by_cases he : e.1 = k
    · rw [List.filter_cons_of_pos (by simp [he])]
      have hknot : k ∉ rest.map Prod.fst := by
        rw [List.map_cons] at hn
        exact he ▸ (List.nodup_cons.mp hn).1
      rw [filter_key_eq_nil hknot]
      rfl
    · simp only [alookup, he, if_false] at hl
      rw [List.filter_cons_of_neg (by simp [he])]
      rw [List.map_cons] at hn
      exact ih (List.nodup_cons.mp hn).2 hl

/-- C2: path normalization agrees across operations: `//a//b.js` and
`/a/b.js` denote the same canonical path; after a successful
`createFile("//a//b.js", x)` on a duplicate-free tree, `readFile("/a/b.js")`
returns `x` and exactly one node exists at that path (no duplicate or alias
nodes). -/
theorem vfs_path_normalization :
    pathSegments "//a//b.js" = pathSegments "/a/b.js" ∧
    (∀ (fs fs2 : VFS) (x : String), NodupKeys fs →
      fs.createFile "//a//b.js" x = .ok fs2 →
      fs2.readFile "/a/b.js" = .ok x ∧
      (fs2.entries.filter (fun e => decide (e.1 = pathSegments "/a/b.js"))).length = 1) := by
  refine ⟨rfl, ?_⟩
  intro fs fs2 x hn hok
  have hpeq : pathSegments "//a//b.js" = pathSegments "/a/b.js" := rfl
  rcases createFileKey_ok hok with ⟨fsE, hE, hfs2⟩
  have hlook : fs2.lookup (pathSegments "/a/b.js") = some (VNode.file x) := by
    rw [hfs2, vfs_lookup_entries]
    rw [← hpeq]
    rw [alookup_insertEntry]
    simp
  constructor
  · unfold VFS.readFile
    rw [hlook]
  · have hnE : NodupKeys fsE := nodupKeys_ensureDirs hE hn
    have hn2 : NodupKeys fs2 := by
      rw [hfs2]
      exact nodupKeys_insertEntry _ _ _ hnE
    exact count_key_one hn2 hlook

/-- C3: creating a file at a path currently holding a directory fails with
`PathConflict`, the tree after the failed call is exactly the tree from
before it, and in general every failed VFS operation is a no-op on the
tree. -/
theorem vfs_createFile_dir_conflict (fs : VFS) (path c : String)
    (h : fs.lookup (pathSegments path) = some VNode.dir) :
    fs.createFile path c = .error VfsError.PathConflict ∧
    applyOp fs (VfsOp.opCreateFile path c) = fs ∧
    (∀ (fs2 : VFS) (op : VfsOp) (er : VfsError),
      runOp fs2 op = .error er → applyOp fs2 op = fs2) := by
  have herr : fs.createFile path c = .error VfsError.PathConflict := by
    unfold VFS.createFile VFS.createFileKey
    rw [h]
  refine ⟨herr, ?_, ?_⟩
  · unfold applyOp
    have hrun : runOp fs (VfsOp.opCreateFile path c) = fs.createFile path c := rfl
    rw [hrun, herr]
  · intro fs2 op er hrun
    unfold applyOp
    rw [hrun]

/-! Lookup characterization of the rename subtree rewrite. -/

theorem alookup_map_rw_new (o n : Key) (l : List (Key × VNode))
    (hl : ∀ e ∈ l, ¬ (n <+: e.1)) (s : Key) :
    alookup (n ++ s) (l.map (fun e =>
      if o.isPrefixOf e.1 then (n ++ e.1.drop o.length, e.2) else e)) =
    alookup (o ++ s) l := by
  induction l with
  | nil => rfl
  | cons e rest ih =>
    have hltail : ∀ e2 ∈ rest, ¬ (n <+: e2.1) := fun e2 h2 => hl e2 (List.mem_cons_of_mem _ h2)
    cases hp : o.isPrefixOf e.1 with
    | true =>
      have hpre2 : o <+: e.1 := List.isPrefixOf_iff_prefix.mp hp
      have hk : o ++ e.1.drop o.length = e.1 := List.prefix_iff_eq_append.mp hpre2
      by_cases hs : s = e.1.drop o.length
      · have h1 : n ++ s = n ++ e.1.drop o.length := by rw [hs]
        have h2 : e.1 = o ++ s := by rw [hs, hk]
        simp only [List.map_cons, hp, if_true, alookup]
        rw [if_pos h1.symm, if_pos h2]
      · have h1 : ¬ (n ++ e.1.drop o.length = n ++ s) := by
          intro hc
          exact hs (List.append_cancel_left hc).symm
        have h2 : ¬ (e.1 = o ++ s) := by
          intro hc
          rw [← hk] at hc
          exact hs (List.append_cancel_left hc).symm
        simp only [List.map_cons, hp, if_true, alookup]
        rw [if_neg h1, if_neg h2]
        exact ih hltail
    | false =>
      have hnp : ¬ (o <+: e.1) := fun hc => by
        rw [(List.isPrefixOf_iff_prefix.mpr hc : o.isPrefixOf e.1 = true)] at hp
        exact Bool.noConfusion hp
      have h1 : ¬ (e.1 = n ++ s) := by
        intro hc
        exact hl e (List.mem_cons_self _ _) (hc ▸ List.prefix_append n s)
      have h2 : ¬ (e.1 = o ++ s) := by
        intro hc
        exact hnp (hc ▸ List.prefix_append o s)
      simp only [List.map_cons, hp, Bool.false_eq_true, if_false, alookup]
      rw [if_neg h1, if_neg h2]
      exact ih hltail

theorem alookup_map_rw_old (o n : Key) (hon : ¬ (o <+: n)) (hno : ¬ (n <+: o))
    (l : List (Key × VNode)) (hl : ∀ e ∈ l, ¬ (n <+: e.1)) (s : Key) :
    alookup (o ++ s) (l.map (fun e =>
      if o.isPrefixOf e.1 then (n ++ e.1.drop o.length, e.2) else e)) = none := by
  have hnos : ¬ (n <+: o ++ s) := by
    intro hc
    rcases List.prefix_or_prefix_of_prefix hc (List.prefix_append o s) with h | h
    · exact hno h
    · exact hon h
  induction l with
  | nil => rfl
  | cons e rest ih =>
    have hltail : ∀ e2 ∈ rest, ¬ (n <+: e2.1) := fun e2 h2 => hl e2 (List.mem_cons_of_mem _ h2)
    cases hp : o.isPrefixOf e.1 with
    | true =>
      have h1 : ¬ (n ++ e.1.drop o.length = o ++ s) := by
        intro hc
        exact hnos (hc ▸ List.prefix_append n (e.1.drop o.length))
      simp only [List.map_cons, hp, if_true, alookup]
      rw [if_neg h1]
      exact ih hltail
    | false =>
      have hnp : ¬ (o <+: e.1) := fun hc => by
        rw [(List.isPrefixOf_iff_prefix.mpr hc : o.isPrefixOf e.1 = true)] at hp
        exact Bool.noConfusion hp
      have h1 : ¬ (e.1 = o ++ s) := by
        intro hc
        exact hnp (hc ▸ List.prefix_append o s)
      simp only [List.map_cons, hp, Bool.false_eq_true, if_false, alookup]
      rw [if_neg h1]
      exact ih hltail

/-- C5: renameNode fails with NotFound when the old path is absent, with
PathConflict when the new path is occupied, and otherwise re-parents the
node with its entire subtree: afterwards every suffix of the old path is
found under the new path with the same node, and nothing remains under the
old path. -/
theorem vfs_renameNode_spec (fs : VFS) (oldPath newPath : String) :
    (fs.lookup (pathSegments oldPath) = none →
      fs.renameNode oldPath newPath = .error VfsError.NotFound) ∧
    (∀ v w, fs.lookup (pathSegments oldPath) = some v →
      fs.lookup (pathSegments newPath) = some w →
      fs.renameNode oldPath newPath = .error VfsError.PathConflict) ∧
    (WF fs → ∀ v, fs.lookup (pathSegments oldPath) = some v →
      fs.lookup (pathSegments newPath) = none →
      pathSegments oldPath ≠ [] →
      ¬ (pathSegments oldPath <+: pathSegments newPath) →
      (∀ a ∈ properAncestors (pathSegments newPath), ∀ c,
        fs.lookup a ≠ some (VNode.file c)) →
      ∃ fs2, fs.renameNode oldPath newPath = .ok fs2 ∧
        (∀ s : Key, fs2.lookup (pathSegments newPath ++ s) =
          fs.lookup (pathSegments oldPath ++ s)) ∧
        (∀ s : Key, fs2.lookup (pathSegments oldPath ++ s) = none)) := by
  refine ⟨?_, ?_, ?_⟩
  · intro h
    unfold VFS.renameNode
    simp only [h]
  · intro v w hv hw
    unfold VFS.renameNode
    simp only [hv, hw]
    rfl
  · intro h v hv hn0 ho hon hnof
    have hno : ¬ (pathSegments newPath <+: pathSegments oldPath) :=
      wf_no_orphans h hn0 (pathSegments oldPath, v) (alookup_mem hv)
    have hoE : (pathSegments oldPath).isEmpty = false := by
      cases hc : (pathSegments oldPath).isEmpty with
      | true => exact absurd (List.isEmpty_iff.mp hc) ho
      | false => rfl
    have honB : (pathSegments oldPath).isPrefixOf (pathSegments newPath) = false := by
      cases hc : (pathSegments oldPath).isPrefixOf (pathSegments newPath) with
      | true => exact absurd (List.isPrefixOf_iff_prefix.mp hc) hon
      | false => rfl
    rcases ensureDirs_char (properAncestors (pathSegments newPath)) fs hnof with
      ⟨extra, hEeq, hprops⟩
    have hstep : fs.renameNode oldPath newPath =
        .ok ⟨(fs.entries ++ extra).map (fun e =>
          if (pathSegments oldPath).isPrefixOf e.1 then
            (pathSegments newPath ++ e.1.drop (pathSegments oldPath).length, e.2)
          else e)⟩ := by
      unfold VFS.renameNode
      simp only [hv, hn0, Option.isSome_none, Bool.false_eq_true, if_false, hoE, honB,
        Bool.or_self, hEeq]
    have hlfs : ∀ e ∈ fs.entries ++ extra, ¬ (pathSegments newPath <+: e.1) := by
      intro e he
      rcases List.mem_append.mp he with h2 | h2
      · exact wf_no_orphans h hn0 e h2
      · have := properAncestors_length_lt (hprops e h2).1
        intro hc
        have := hc.length_le
        omega
    refine ⟨_, hstep, ?_, ?_⟩
    · intro s
      rw [vfs_lookup_entries]
      have := alookup_map_rw_new (pathSegments oldPath) (pathSegments newPath)
        (fs.entries ++ extra) hlfs s
      rw [this]
      rw [alookup_append]
      cases hfs : alookup (pathSegments oldPath ++ s) fs.entries with
      | some w => rw [vfs_lookup_entries, hfs]
      | none =>
        rw [vfs_lookup_entries, hfs]
        simp only
        rw [(alookup_eq_none_iff _ _).mpr]
        intro hc
        rcases List.mem_map.mp hc with ⟨e2, he2, hke⟩
        have hanc := (hprops e2 he2).1
        rw [hke] at hanc
        have hpre2 : (pathSegments oldPath ++ s) <+: pathSegments newPath :=
          properAncestors_isPre hanc
        exact hon (List.prefix_append (pathSegments oldPath) s |>.trans hpre2)
    · intro s
      rw [vfs_lookup_entries]
      exact alookup_map_rw_old (pathSegments oldPath) (pathSegments newPath) hon hno
        (fs.entries ++ extra) hlfs s

/-! Root-entry preservation for every mutating operation. -/

theorem rootOne_alookup : ∀ l : List (Key × VNode),
    l.filter (fun e => e.1.isEmpty) = [([], VNode.dir)] → alookup [] l = some VNode.dir := by
  intro l
  induction l with
  | nil => intro h; simp at h
  | cons e rest ih =>
    intro h
    cases hc : e.1.isEmpty with
    | true =>
      rw [List.filter_cons_of_pos (by simp [hc])] at h
      have h1 : e = ([], VNode.dir) := (List.cons_eq_cons.mp h).1
      rw [h1]
      simp [alookup]
    | false =>
      rw [List.filter_cons_of_neg (by simp [hc])] at h
      have hne : e.1 ≠ [] := by
        intro hc2
        rw [hc2] at hc
        simp at hc
      simp only [alookup, hne, if_false]
      exact ih h

theorem filter_root_insertEntry (k : Key) (v : VNode) (l : List (Key × VNode)) (hk : k ≠ []) :
    (insertEntry k v l).filter (fun e => e.1.isEmpty) = l.filter (fun e => e.1.isEmpty) := by
  have hkE : k.isEmpty = false := by
    cases k with
    | nil => exact absurd rfl hk
    | cons a t => rfl
  induction l with
  | nil => simp [insertEntry, List.filter_cons, hkE]
  | cons e rest ih =>
    by_cases he : e.1 = k
    · simp only [insertEntry, he, if_true]
      rw [List.filter_cons_of_neg (by simp [hkE]), List.filter_cons_of_neg (by simp [he, hkE])]
    · simp only [insertEntry, he, if_false]
      cases hc : e.1.isEmpty with
      | true =>
        rw [List.filter_cons_of_pos (by simp [hc]), List.filter_cons_of_pos (by simp [hc]), ih]
      | false =>
        rw [List.filter_cons_of_neg (by simp [hc]), List.filter_cons_of_neg (by simp [hc])]
        exact ih

theorem rootOne_ensureDirs {l : List Key} :
    ∀ {fs fsE : VFS}, ensureDirs l fs = .ok fsE → (∀ a ∈ l, a ≠ []) →
      RootOne fs → RootOne fsE := by
  induction l with
  | nil =>
    intro fs fsE h _ hr
    simp only [ensureDirs, Except.ok.injEq] at h
    rw [← h]
    exact hr
  | cons a rest ih =>
    intro fs fsE h hne hr
    unfold ensureDirs at h
    cases hl : fs.lookup a with
    | some v =>
      cases v with
      | dir =>
        rw [hl] at h
        exact ih h (fun b hb => hne b (List.mem_cons_of_mem _ hb)) hr
      | file c =>
        rw [hl] at h
        simp at h
    | none =>
      rw [hl] at h
      refine ih h (fun b hb => hne b (List.mem_cons_of_mem _ hb)) ?_
      unfold RootOne at hr ⊢
      rw [filter_root_insertEntry a VNode.dir fs.entries (hne a (List.mem_cons_self _ _))]
      exact hr

theorem properAncestors_all_ne_nil (k : Key) : ∀ a ∈ properAncestors k, a ≠ [] :=
  fun _ ha => properAncestors_ne_nil ha

theorem rootOne_createFileKey {fs fs2 : VFS} {p : Key} {c : String}
    (h : fs.createFileKey p c = .ok fs2) (hr : RootOne fs) : RootOne fs2 := by
  have hp : p ≠ [] := by
    intro hnil
    rw [hnil] at h
    have := rootOne_alookup fs.entries hr
    rw [← vfs_lookup_entries] at this
    exact createFileKey_ok_not_dir h this
  rcases createFileKey_ok h with ⟨fsE, hE, hfs2⟩
  have hrE : RootOne fsE := rootOne_ensureDirs hE (properAncestors_all_ne_nil p) hr
  unfold RootOne at hrE ⊢
  rw [hfs2]
  have : (⟨insertEntry p (VNode.file c) fsE.entries⟩ : VFS).entries =
      insertEntry p (VNode.file c) fsE.entries := rfl
  rw [this, filter_root_insertEntry p (VNode.file c) fsE.entries hp]
  exact hrE

theorem rootOne_createDirKey {fs fs2 : VFS} {p : Key}
    (h : fs.createDirKey p = .ok fs2) (hr : RootOne fs) : RootOne fs2 := by
  unfold VFS.createDirKey at h
  cases hl : fs.lookup p with
  | some v =>
    cases v with
    | dir =>
      rw [hl] at h
      simp only [Except.ok.injEq] at h
      rw [← h]
      exact hr
    | file c =>
      rw [hl] at h
      simp at h
  | none =>
    rw [hl] at h
    have hp : p ≠ [] := by
      intro hnil
      rw [hnil] at hl
      have := rootOne_alookup fs.entries hr
      rw [← vfs_lookup_entries] at this
      rw [hl] at this
      simp at this
    cases hE : ensureDirs (properAncestors p) fs with
    | error er => rw [hE] at h; simp at h
    | ok fsE =>
      rw [hE] at h
      simp only [Except.ok.injEq] at h
      have hrE : RootOne fsE := rootOne_ensureDirs hE (properAncestors_all_ne_nil p) hr
      rw [← h]
      unfold RootOne at hrE ⊢
      rw [(rfl : (⟨insertEntry p VNode.dir fsE.entries⟩ : VFS).entries =
        insertEntry p VNode.dir fsE.entries)]
      rw [filter_root_insertEntry p VNode.dir fsE.entries hp]
      exact hrE

theorem filter_filter_root (keep : Key × VNode → Bool) (l : List (Key × VNode))
    (hkeep : ∀ e : Key × VNode, e.1.isEmpty = true → keep e = true) :
    (l.filter keep).filter (fun e => e.1.isEmpty) = l.filter (fun e => e.1.isEmpty) := by
  induction l with
  | nil => rfl
  | cons e rest ih =>
    cases hc : e.1.isEmpty with
    | true =>
      rw [List.filter_cons_of_pos (by simp [hkeep e hc]), List.filter_cons_of_pos (by simp [hc]),
        List.filter_cons_of_pos (by simp [hc]), ih]
    | false =>
      cases hk : keep e with
      | true =>
        rw [List.filter_cons_of_pos (by simp [hk]), List.filter_cons_of_neg (by simp [hc]),
          List.filter_cons_of_neg (by simp [hc]), ih]
      | false =>
        rw [List.filter_cons_of_neg (by simp [hk]), List.filter_cons_of_neg (by simp [hc]), ih]

theorem rootOne_updateFile {fs fs2 : VFS} {path c : String}
    (h : fs.updateFile path c = .ok fs2) (hr : RootOne fs) : RootOne fs2 := by
  unfold VFS.updateFile at h
  cases hl : fs.lookup (pathSegments path) with
  | some v =>
    cases v with
    | file c0 =>
      rw [hl] at h
      simp only [Except.ok.injEq] at h
      have hp : pathSegments path ≠ [] := by
        intro hnil
        rw [hnil] at hl
        have := rootOne_alookup fs.entries hr
        rw [← vfs_lookup_entries] at this
        rw [hl] at this
        simp at this
      rw [← h]
      unfold RootOne at hr ⊢
      rw [(rfl : (⟨insertEntry (pathSegments path) (VNode.file c) fs.entries⟩ : VFS).entries =
        insertEntry (pathSegments path) (VNode.file c) fs.entries)]
      rw [filter_root_insertEntry _ _ _ hp]
      exact hr
    | dir =>
      rw [hl] at h
      simp at h
  | none =>
    rw [hl] at h
    simp at h

theorem deleteNode_ok {fs fs2 : VFS} {path : String} (h : fs.deleteNode path = .ok fs2) :
    pathSegments path ≠ [] ∧
    fs2 = ⟨fs.entries.filter (fun e => !((pathSegments path).isPrefixOf e.1))⟩ := by
  have hdef : fs.deleteNode path =
      (if pathSegments path = [] then (.error VfsError.InvalidOperation : Except VfsError VFS)
       else
         match fs.lookup (pathSegments path) with
         | none => .error VfsError.NotFound
         | some _ =>
           .ok ⟨fs.entries.filter (fun e => !((pathSegments path).isPrefixOf e.1))⟩) := rfl
  rw [hdef] at h
  by_cases hp : pathSegments path = []
  · rw [if_pos hp] at h
    simp at h
  · rw [if_neg hp] at h
    cases hl : fs.lookup (pathSegments path) with
    | none => rw [hl] at h; simp at h
    | some v =>
      rw [hl] at h
      simp only [Except.ok.injEq] at h
      exact ⟨hp, h.symm⟩

theorem rootOne_deleteNode {fs fs2 : VFS} {path : String}
    (h : fs.deleteNode path = .ok fs2) (hr : RootOne fs) : RootOne fs2 := by
  rcases deleteNode_ok h with ⟨hp, hfs2⟩
  rw [hfs2]
  unfold RootOne at hr ⊢
  rw [(rfl : (⟨fs.entries.filter (fun e => !((pathSegments path).isPrefixOf e.1))⟩ : VFS).entries =
    fs.entries.filter (fun e => !((pathSegments path).isPrefixOf e.1)))]
  rw [filter_filter_root _ _ ?_]
  · exact hr
  · intro e he
    have hnil : e.1 = [] := by
      cases hc : e.1 with
      | nil => rfl
      | cons a t =>
        rw [hc] at he
        simp at he
    rw [hnil]
    cases hq : pathSegments path with
    | nil => exact absurd hq hp
    | cons a t => rfl

theorem filter_root_map_rw (o n : Key) (ho : o ≠ []) (hn : n ≠ [])
    (l : List (Key × VNode)) :
    (l.map (fun e => if o.isPrefixOf e.1 then (n ++ e.1.drop o.length, e.2) else e)).filter
      (fun e => e.1.isEmpty) = l.filter (fun e => e.1.isEmpty) := by
  induction l with
  | nil => rfl
  | cons e rest ih =>
    cases hp : o.isPrefixOf e.1 with
    | true =>
      have hpre2 : o <+: e.1 := List.isPrefixOf_iff_prefix.mp hp
      have he1 : e.1.isEmpty = false := by
        cases hc : e.1 with
        | nil =>
          rw [hc] at hpre2
          exact absurd (List.prefix_nil.mp hpre2) ho
        | cons a t => rfl
      have hnew : (n ++ e.1.drop o.length).isEmpty = false := by
        cases hc : n with
        | nil => exact absurd hc hn
        | cons a t => rfl
      simp only [List.map_cons, hp, if_true]
      rw [List.filter_cons_of_neg (by simp [hnew]), List.filter_cons_of_neg (by simp [he1])]
      exact ih
    | false =>
      simp only [List.map_cons, hp, Bool.false_eq_true, if_false]
      cases hc : e.1.isEmpty with
      | true =>
        rw [List.filter_cons_of_pos (by simp [hc]), List.filter_cons_of_pos (by simp [hc]), ih]
      | false =>
        rw [List.filter_cons_of_neg (by simp [hc]), List.filter_cons_of_neg (by simp [hc])]
        exact ih

theorem rootOne_renameNode {fs fs2 : VFS} {oldPath newPath : String}
    (h : fs.renameNode oldPath newPath = .ok fs2) (hr : RootOne fs) : RootOne fs2 := by
  have hdef : fs.renameNode oldPath newPath =
      (match fs.lookup (pathSegments oldPath) with
       | none => (.error VfsError.NotFound : Except VfsError VFS)
       | some _ =>
         if (fs.lookup (pathSegments newPath)).isSome then .error VfsError.PathConflict
         else if (pathSegments oldPath).isEmpty ||
             (pathSegments oldPath).isPrefixOf (pathSegments newPath) then
           .error VfsError.InvalidOperation
         else
           match ensureDirs (properAncestors (pathSegments newPath)) fs with
           | .error e => .error e
           | .ok fsE =>
             .ok ⟨fsE.entries.map (fun e =>
               if (pathSegments oldPath).isPrefixOf e.1 then
                 (pathSegments newPath ++ e.1.drop (pathSegments oldPath).length, e.2)
               else e)⟩) := rfl
  rw [hdef] at h
  cases hlo : fs.lookup (pathSegments oldPath) with
  | none => rw [hlo] at h; simp at h
  | some v =>
    rw [hlo] at h
    cases hln : (fs.lookup (pathSegments newPath)).isSome with
    | true => rw [hln] at h; simp at h
    | false =>
      rw [hln] at h
      simp only [Bool.false_eq_true, if_false] at h
      cases hg : (pathSegments oldPath).isEmpty ||
          (pathSegments oldPath).isPrefixOf (pathSegments newPath) with
      | true => rw [hg] at h; simp at h
      | false =>
        rw [hg] at h
        simp only [Bool.false_eq_true, if_false] at h
        have ho : pathSegments oldPath ≠ [] := by
          intro hnil
          rw [Bool.or_eq_false_iff] at hg
          rw [hnil] at hg
          simp at hg
        have hn : pathSegments newPath ≠ [] := by
          intro hnil
          rw [hnil] at hln
          have := rootOne_alookup fs.entries hr
          rw [← vfs_lookup_entries] at this
          rw [this] at hln
          simp at hln
        cases hE : ensureDirs (properAncestors (pathSegments newPath)) fs with
        | error er => rw [hE] at h; simp at h
        | ok fsE =>
          rw [hE] at h
          simp only [Except.ok.injEq] at h
          have hrE : RootOne fsE :=
            rootOne_ensureDirs hE (properAncestors_all_ne_nil _) hr
          rw [← h]
          unfold RootOne at hrE ⊢
          exact (filter_root_map_rw _ _ ho hn fsE.entries).trans hrE

theorem rootOne_createDirsAll {es : List (String × VNode)} :
    ∀ {fs fs2 : VFS}, createDirsAll fs es = .ok fs2 → RootOne fs → RootOne fs2 := by
  induction es with
  | nil =>
    intro fs fs2 h hr
    simp only [createDirsAll, Except.ok.injEq] at h
    rw [← h]
    exact hr
  | cons e rest ih =>
    intro fs fs2 h hr
    unfold createDirsAll at h
    cases hc : fs.createDirectory e.1 with
    | error er => rw [hc] at h; simp at h
    | ok fsb =>
      rw [hc] at h
      exact ih h (rootOne_createDirKey hc hr)

theorem rootOne_createFilesAll {es : List (String × VNode)} :
    ∀ {fs fs2 : VFS}, createFilesAll fs es = .ok fs2 → RootOne fs → RootOne fs2 := by
  induction es with
  | nil =>
    intro fs fs2 h hr
    simp only [createFilesAll, Except.ok.injEq] at h
    rw [← h]
    exact hr
  | cons e rest ih =>
    intro fs fs2 h hr
    cases e with
    | mk p w =>
      cases w with
      | file c =>
        unfold createFilesAll at h
        cases hc : fs.createFile p c with
        | error er => rw [hc] at h; simp at h
        | ok fsb =>
          rw [hc] at h
          exact ih h (rootOne_createFileKey hc hr)
      | dir =>
        unfold createFilesAll at h
        simp at h

theorem rootOne_emptyVFS : RootOne emptyVFS := rfl

theorem rootOne_deserialize {snap : List (String × VNode)} {fs2 : VFS}
    (h : deserialize snap = .ok fs2) : RootOne fs2 := by
  have hdef : deserialize snap =
      (match createDirsAll emptyVFS (sortByDepth (snap.filter isDirEntry)) with
       | .error _ => (.error VfsError.InvalidSnapshot : Except VfsError VFS)
       | .ok fs1 =>
         match createFilesAll fs1 (snap.filter (fun e => !(isDirEntry e))) with
         | .error _ => .error VfsError.InvalidSnapshot
         | .ok fsy => .ok fsy) := rfl
  rw [hdef] at h
  cases h1 : createDirsAll emptyVFS (sortByDepth (snap.filter isDirEntry)) with
  | error er => rw [h1] at h; simp at h
  | ok fs1 =>
    rw [h1] at h
    replace h : (match createFilesAll fs1 (snap.filter (fun e => !(isDirEntry e))) with
      | .error _ => (.error VfsError.InvalidSnapshot : Except VfsError VFS)
      | .ok fsy => .ok fsy) = .ok fs2 := h
    cases h2 : createFilesAll fs1 (snap.filter (fun e => !(isDirEntry e))) with
    | error er => rw [h2] at h; simp at h
    | ok fsy =>
      rw [h2] at h
      simp only [Except.ok.injEq] at h
      rw [← h]
      exact rootOne_createFilesAll h2 (rootOne_createDirsAll h1 rootOne_emptyVFS)

theorem rootOne_applyOp (fs : VFS) (op : VfsOp) (hr : RootOne fs) :
    RootOne (applyOp fs op) := by
  unfold applyOp
  cases hrun : runOp fs op with
  | error er => exact hr
  | ok fs2 =>
    cases op with
    | opCreateFile p c => exact rootOne_createFileKey hrun hr
    | opCreateDirectory p => exact rootOne_createDirKey hrun hr
    | opUpdateFile p c => exact rootOne_updateFile hrun hr
    | opDeleteNode p => exact rootOne_deleteNode hrun hr
    | opRenameNode p q => exact rootOne_renameNode hrun hr
    | opDeserialize snap => exact rootOne_deserialize hrun

/-- C6: every tree reachable from the empty tree by any sequence of
mutating VFS operations contains exactly one root directory entry at the
root path, and deleting the root always fails with `InvalidOperation`. -/
theorem vfs_root_invariant (ops : List VfsOp) :
    RootOne (ops.foldl applyOp emptyVFS) ∧
    (ops.foldl applyOp emptyVFS).deleteNode "/" = .error VfsError.InvalidOperation := by
  have hfold : ∀ (l : List VfsOp) (fs : VFS), RootOne fs → RootOne (l.foldl applyOp fs) := by
    intro l
    induction l with
    | nil => intro fs hr; exact hr
    | cons op rest ih =>
      intro fs hr
      exact ih (applyOp fs op) (rootOne_applyOp fs op hr)
  refine ⟨hfold ops emptyVFS rootOne_emptyVFS, ?_⟩
  have hdel : ∀ fs : VFS, fs.deleteNode "/" = .error VfsError.InvalidOperation := by
    intro fs
    rfl
  exact hdel _

/-- C4: a transpile failure is captured as an error artifact keyed by the
failing file's path while every other file still gets processed (the walk
never aborts), and whenever any per-file transpile or resolve error
artifacts exist, the synthesized document is the formatted error listing of
exactly those artifacts (file path plus message) and never attempts to
mount the entry module. -/
theorem pipeline_error_isolation
    (tp : String → String → Except String String)
    (rs : ModuleRecord → Except String ModuleRecord)
    (files : List (String × String)) :
    ((transpileWalk tp files).2 = files.filterMap (fun e =>
        match tp e.1 e.2 with
        | .error m => some ⟨e.1, m⟩
        | .ok _ => none) ∧
      (transpileWalk tp files).1 = files.filterMap (fun e =>
        match tp e.1 e.2 with
        | .ok code => some ⟨e.1, code⟩
        | .error _ => none)) ∧
    (∀ (mods : List ModuleRecord) (errs : List ErrorArtifact), errs ≠ [] →
      synthesizeDocument mods errs =
        PreviewDoc.errorListing (errs.map (fun a => (a.path, a.message))) ∧
      docMounts (synthesizeDocument mods errs) = false) ∧
    (∀ (w1 : List ModuleRecord × List ErrorArtifact)
        (r1 : List ModuleRecord × List ErrorArtifact),
      transpileWalk tp files = w1 → resolveWalk rs w1.1 = r1 →
      w1.2 ++ r1.2 ≠ [] →
      runPipeline tp rs files =
        PreviewDoc.errorListing ((w1.2 ++ r1.2).map (fun a => (a.path, a.message))) ∧
      docMounts (runPipeline tp rs files) = false) := by
  have hsynth : ∀ (mods : List ModuleRecord) (errs : List ErrorArtifact), errs ≠ [] →
      synthesizeDocument mods errs =
        PreviewDoc.errorListing (errs.map (fun a => (a.path, a.message))) := by
    intro mods errs hne
    unfold synthesizeDocument
    rw [if_neg ?_]
    intro hc
    exact hne (List.isEmpty_iff.mp hc)
  refine ⟨?_, ?_, ?_⟩
  · induction files with
    | nil => exact ⟨rfl, rfl⟩
    | cons e rest ih =>
      cases e with
      | mk p src =>
        cases hc : tp p src with
        | ok code =>
          constructor
          · simp only [transpileWalk, hc, List.filterMap_cons]
            exact ih.1
          · simp only [transpileWalk, hc, List.filterMap_cons]
            rw [ih.2]
        | error m =>
          constructor
          · simp only [transpileWalk, hc, List.filterMap_cons]
            rw [ih.1]
          · simp only [transpileWalk, hc, List.filterMap_cons]
            exact ih.2
  · intro mods errs hne
    refine ⟨hsynth mods errs hne, ?_⟩
    rw [hsynth mods errs hne]
    rfl
  · intro w1 r1 hw hr hne
    have hrun : runPipeline tp rs files = synthesizeDocument r1.1 (w1.2 ++ r1.2) := by
      unfold runPipeline
      rw [hw]
      simp only [hr]
    rw [hrun, hsynth r1.1 (w1.2 ++ r1.2) hne]
    exact ⟨rfl, rfl⟩

/-- C7: a render generation superseded before its load completes is
discarded: after starting generation g1 and then g2, the completion
callback of g1 is a no-op both before and after g2 completes, only g2's
outcome is ever displayed, and in general a completion carrying anything
other than the current generation leaves the state unchanged. -/
theorem renderer_stale_discard (s0 : RendererState) (r1 r2 : RenderOutcome) :
    (completeRender (startRender (startRender s0)) (startRender s0).generation r1 =
      startRender (startRender s0)) ∧
    (completeRender (completeRender (startRender (startRender s0))
        (startRender (startRender s0)).generation r2)
        (startRender s0).generation r1 =
      completeRender (startRender (startRender s0))
        (startRender (startRender s0)).generation r2) ∧
    ((completeRender (startRender (startRender s0))
        (startRender (startRender s0)).generation r2).displayed =
      some ((startRender (startRender s0)).generation, r2)) ∧
    (∀ (s : RendererState) (gen : Nat) (r : RenderOutcome), gen ≠ s.generation →
      completeRender s gen r = s) := by
  refine ⟨?_, ?_, ?_, ?_⟩
  · unfold completeRender startRender
    rw [if_neg ?_]
    simp
  · unfold completeRender startRender
    rw [if_pos rfl]
    rw [if_neg ?_]
    simp
  · unfold completeRender startRender
    rw [if_pos rfl]
  · intro s gen r hne
    unfold completeRender
    rw [if_neg hne]

/-- C8: getToolDisplayInfo never fails on any input: a tool name other than
str_replace_editor and file_manager is displayed by its own name, a missing
path displays the literal filename "file" (e.g. "Creating file" for the
create command), and a null args value yields the default
"Modifying file". -/
theorem toolDisplayInfo_total :
    (∀ (tn : String) (args : Option ToolArgs), tn ≠ "str_replace_editor" →
      tn ≠ "file_manager" → getToolDisplayInfo tn args = (ToolIcon.fileText, tn)) ∧
    (∀ args : Option ToolArgs, args.bind ToolArgs.path = none →
      args.bind ToolArgs.command = some "create" →
      (getToolDisplayInfo "str_replace_editor" args).2 = "Creating file") ∧
    getToolDisplayInfo "str_replace_editor" none = (ToolIcon.fileText, "Modifying file") := by
  refine ⟨?_, ?_, ?_⟩
  · intro tn args h1 h2
    unfold getToolDisplayInfo
    rw [if_neg h1, if_neg h2]
  · intro args hpath hcmd
    unfold getToolDisplayInfo
    rw [if_pos rfl, hpath, hcmd]
    rfl
  · rfl

/-- C9: the badge renders the completed indicator exactly when the state is
the result state and a result value is present; in every other combination
it renders the loading spinner, and the icon and message are the same in
both variants for the same tool name and args. -/
theorem toolBadge_state (tn : String) (args : Option ToolArgs) (st : ToolState)
    (res : Option String) :
    ((toolInvocationBadge tn args st res).completed = true ↔
      (st = ToolState.stResult ∧ res ≠ none)) ∧
    (toolInvocationBadge tn args st res).icon = (getToolDisplayInfo tn args).1 ∧
    (toolInvocationBadge tn args st res).message = (getToolDisplayInfo tn args).2 := by
  cases st <;> cases res <;> simp [toolInvocationBadge]

/-! Association lookup for JSON object fields. -/

theorem olookup_oupsert (k : String) (v : JsonVal) (l : List (String × JsonVal))
    (q : String) : olookup q (oupsert k v l) = if k = q then some v else olookup q l := by
  induction l with
  | nil => simp [oupsert, olookup]
  | cons e rest ih =>
    by_cases he : e.1 = k
    · by_cases hq : k = q
      · simp [oupsert, olookup, he, hq]
      · have h2 : ¬ e.1 = q := fun h => hq (he ▸ h)
        simp [oupsert, olookup, he, hq, h2]
    · by_cases h2 : e.1 = q
      · have hq : ¬ k = q := fun h => he (h ▸ h2)
        simp only [oupsert, he, if_false]
        simp [olookup, h2, hq]
      · simp [oupsert, olookup, he, h2, ih]

/-- C10: every chat request body built by the ChatProvider's custom fetch
carries the complete serialized VFS snapshot under the key "files" and the
current projectId, and preserves every other field of the original body, so
the server always receives the full file tree. -/
theorem chat_body_files (fs : VFS) (pid : Option String)
    (body : List (String × JsonVal)) :
    sentLookup "files" (customFetchBody fs pid body) =
      some (JsonVal.jobj (encodeSnapshot fs.serialize)) ∧
    sentLookup "projectId" (customFetchBody fs pid body) = pid.map JsonVal.jstr ∧
    (∀ k, k ≠ "files" → k ≠ "projectId" →
      olookup k (customFetchBody fs pid body) = olookup k body) := by
  refine ⟨?_, ?_, ?_⟩
  · unfold sentLookup customFetchBody
    rw [olookup_oupsert]
    rw [if_neg (by decide)]
    rw [olookup_oupsert, if_pos rfl]
  · unfold sentLookup customFetchBody
    rw [olookup_oupsert, if_pos rfl]
    cases pid with
    | some s => rfl
    | none => rfl
  · intro k h1 h2
    unfold customFetchBody
    rw [olookup_oupsert, if_neg (fun hc => h2 hc.symm),
      olookup_oupsert, if_neg (fun hc => h1 hc.symm)]

/-! Concrete witnesses instantiating the claim theorems. -/

/-- Witness for the round-trip claim at a concrete well-formed tree. -/
theorem vfs_serialize_roundtrip_witness :
    ∃ T2, deserialize (VFS.serialize ⟨[(([] : Key), VNode.dir), (["a"], VNode.dir),
        (["a", "b.js"], VNode.file "x")]⟩) = .ok T2 ∧
      (∀ k : Key, T2.lookup k =
        VFS.lookup ⟨[(([] : Key), VNode.dir), (["a"], VNode.dir),
          (["a", "b.js"], VNode.file "x")]⟩ k) ∧
      List.Perm T2.serialize (VFS.serialize ⟨[(([] : Key), VNode.dir), (["a"], VNode.dir),
        (["a", "b.js"], VNode.file "x")]⟩) :=
  vfs_serialize_roundtrip
    ⟨[(([] : Key), VNode.dir), (["a"], VNode.dir), (["a", "b.js"], VNode.file "x")]⟩
    (by decide)

/-- Witness for the path-normalization claim on the empty tree. -/
theorem vfs_path_normalization_witness :
    VFS.readFile ⟨[(([] : Key), VNode.dir), (["a"], VNode.dir),
        (["a", "b.js"], VNode.file "hello")]⟩ "/a/b.js" = .ok "hello" ∧
    ((⟨[(([] : Key), VNode.dir), (["a"], VNode.dir),
        (["a", "b.js"], VNode.file "hello")]⟩ : VFS).entries.filter
      (fun e => decide (e.1 = pathSegments "/a/b.js"))).length = 1 :=
  vfs_path_normalization.2 emptyVFS
    ⟨[(([] : Key), VNode.dir), (["a"], VNode.dir), (["a", "b.js"], VNode.file "hello")]⟩
    "hello" (by decide) rfl

/-- Witness for the create-conflict claim at a tree holding a directory. -/
theorem vfs_createFile_dir_conflict_witness :
    VFS.createFile ⟨[(([] : Key), VNode.dir), (["a"], VNode.dir)]⟩ "/a" "x" =
      .error VfsError.PathConflict ∧
    applyOp ⟨[(([] : Key), VNode.dir), (["a"], VNode.dir)]⟩ (VfsOp.opCreateFile "/a" "x") =
      ⟨[(([] : Key), VNode.dir), (["a"], VNode.dir)]⟩ :=
  ⟨(vfs_createFile_dir_conflict ⟨[(([] : Key), VNode.dir), (["a"], VNode.dir)]⟩ "/a" "x" rfl).1,
   (vfs_createFile_dir_conflict ⟨[(([] : Key), VNode.dir), (["a"], VNode.dir)]⟩ "/a" "x" rfl).2.1⟩

/-- Witness for the pipeline error-isolation claim: one broken file among
two produces an error listing and no mount. -/
theorem pipeline_error_isolation_witness :
    runPipeline
        (fun p _ => if p = "/Broken.jsx" then .error "boom" else .ok "code")
        (fun m => .ok m)
        [("/App.jsx", "a"), ("/Broken.jsx", "b")] =
      PreviewDoc.errorListing [("/Broken.jsx", "boom")] ∧
    docMounts (runPipeline
        (fun p _ => if p = "/Broken.jsx" then .error "boom" else .ok "code")
        (fun m => .ok m)
        [("/App.jsx", "a"), ("/Broken.jsx", "b")]) = false :=
  (pipeline_error_isolation
      (fun p _ => if p = "/Broken.jsx" then .error "boom" else .ok "code")
      (fun m => .ok m)
      [("/App.jsx", "a"), ("/Broken.jsx", "b")]).2.2
    ([⟨"/App.jsx", "code"⟩], [⟨"/Broken.jsx", "boom"⟩])
    ([⟨"/App.jsx", "code"⟩], []) rfl rfl (by decide)

/-- Witness for the rename claim: a missing old path and the concrete
rename of `/a` to `/b` with `/a/c.js` inside. -/
theorem vfs_renameNode_spec_witness :
    VFS.renameNode ⟨[(([] : Key), VNode.dir), (["a"], VNode.dir),
        (["a", "c.js"], VNode.file "x")]⟩ "/zzz" "/b" = .error VfsError.NotFound ∧
    (∃ fs2, VFS.renameNode ⟨[(([] : Key), VNode.dir), (["a"], VNode.dir),
        (["a", "c.js"], VNode.file "x")]⟩ "/a" "/b" = .ok fs2 ∧
      (∀ s : Key, fs2.lookup (pathSegments "/b" ++ s) =
        VFS.lookup ⟨[(([] : Key), VNode.dir), (["a"], VNode.dir),
          (["a", "c.js"], VNode.file "x")]⟩ (pathSegments "/a" ++ s)) ∧
      (∀ s : Key, fs2.lookup (pathSegments "/a" ++ s) = none)) :=
  ⟨(vfs_renameNode_spec ⟨[(([] : Key), VNode.dir), (["a"], VNode.dir),
      (["a", "c.js"], VNode.file "x")]⟩ "/zzz" "/b").1 rfl,
   (vfs_renameNode_spec ⟨[(([] : Key), VNode.dir), (["a"], VNode.dir),
      (["a", "c.js"], VNode.file "x")]⟩ "/a" "/b").2.2 (by decide) VNode.dir rfl rfl
     (by decide) (by decide)
     (by
       intro a ha c
       rw [show properAncestors (pathSegments "/b") = [] from rfl] at ha
       exact absurd ha (List.not_mem_nil a))⟩

/-- Witness for the stale-render-discard claim at concrete generations. -/
theorem renderer_stale_discard_witness :
    completeRender (startRender (startRender initialRenderer))
      (startRender initialRenderer).generation RenderOutcome.loaded =
      startRender (startRender initialRenderer) ∧
    completeRender ⟨5, none⟩ 3 RenderOutcome.loaded = ⟨5, none⟩ :=
  ⟨(renderer_stale_discard initialRenderer RenderOutcome.loaded RenderOutcome.loaded).1,
   (renderer_stale_discard initialRenderer RenderOutcome.loaded
      RenderOutcome.loaded).2.2.2 ⟨5, none⟩ 3 RenderOutcome.loaded (by decide)⟩

/-- Witness for the tool-display totality claim at concrete arguments. -/
theorem toolDisplayInfo_total_witness :
    getToolDisplayInfo "unknown_tool" (some ⟨none, none, none⟩) =
      (ToolIcon.fileText, "unknown_tool") ∧
    (getToolDisplayInfo "str_replace_editor" (some ⟨some "create", none, none⟩)).2 =
      "Creating file" :=
  ⟨toolDisplayInfo_total.1 "unknown_tool" (some ⟨none, none, none⟩) (by decide) (by decide),
   toolDisplayInfo_total.2.1 (some ⟨some "create", none, none⟩) rfl rfl⟩

/-- Witness for the chat-body claim at a concrete body and project. -/
theorem chat_body_files_witness :
    sentLookup "files"
        (customFetchBody emptyVFS (some "p1") [("messages", JsonVal.jstr "m")]) =
      some (JsonVal.jobj (encodeSnapshot emptyVFS.serialize)) ∧
    olookup "messages"
        (customFetchBody emptyVFS (some "p1") [("messages", JsonVal.jstr "m")]) =
      olookup "messages" [("messages", JsonVal.jstr "m")] :=
  ⟨(chat_body_files emptyVFS (some "p1") [("messages", JsonVal.jstr "m")]).1,
   (chat_body_files emptyVFS (some "p1") [("messages", JsonVal.jstr "m")]).2.2
     "messages" (by decide) (by decide)⟩
